import Mathlib

/-!
Verification of the A* pathfinding core of `astar.py`.

The Python source is embedded shallowly:
* `NodeType`, `Node.update_neighbors`, `h`, `reconstruct_path`, `find_path`
  and `make_level` are translated into executable Lean definitions below.
* The per-cell mutable state of the Python program (cell types, score
  dictionaries, the priority queue, the membership set) becomes an explicit
  `SState` record threaded through the search loop.
* The Python `PriorityQueue` of `(fScore, count, node)` tuples is modelled as
  a list from which `popMin` removes the entry that is minimal in the
  lexicographic order on `(fScore, count)`; since every pushed entry carries a
  distinct counter value this is exactly the heap's behaviour.
* `float("inf")` defaults of the score dictionaries are modelled by
  `Option Nat` with `none` playing the role of infinity.
* Observation callbacks (cell opened / closed / path-marked, and the `draw()`
  step boundary) are recorded in an event trace.
* The search loop is written with explicit fuel; theorems either supply a
  concrete fuel or prove that the provided fuel suffices.
-/

namespace AStar

/-- Cell states, mirroring the Python `NodeType` enum. -/
inductive NodeType where
  | CLOSED
  | OPEN
  | UNVISITED
  | OBSTACLE
  | PATH
  | START
  | GOAL
deriving DecidableEq, Repr

/-- Grid coordinate: the `(row, col)` of a Python `Node`. -/
structure Coord where
  row : Nat
  col : Nat
deriving DecidableEq, Repr

/-- A level is the list of rows of cell types, as built by `make_level`. -/
abbrev Level := List (List NodeType)

/-- `level[r][c]` when both indices are in range (a Python `IndexError`
otherwise, returned as `none`). Row indices are always guarded in the source,
so only the column access can fail, and only on ragged levels. -/
def tryCell (lvl : Level) (r c : Nat) : Option NodeType :=
  match lvl.get? r with
  | none => none
  | some row => row.get? c

/-- `Node.update_neighbors`: collects the up/down/left/right neighbours that
are in bounds (w.r.t. the node's `totalRows`/`totalCols`) and not obstacles,
in exactly that order.  The Python body is wrapped in `try/except: pass`, so
an out-of-range column access (possible only on ragged levels) aborts the
scan and keeps the neighbours accumulated so far. -/
def neighborsGo (lvl : Level) : List (Bool × Coord) → List Coord → List Coord
  | [], acc => acc.reverse
  | (g, n) :: rest, acc =>
    if g then
      match tryCell lvl n.row n.col with
      | none => acc.reverse
      | some t =>
        if t = NodeType.OBSTACLE then neighborsGo lvl rest acc
        else neighborsGo lvl rest (n :: acc)
    else neighborsGo lvl rest acc

/-- The four guarded neighbour candidates of `update_neighbors`. -/
def update_neighbors (lvl : Level) (totalRows totalCols : Nat) (c : Coord) :
    List Coord :=
  neighborsGo lvl
    [ (decide (0 < c.row), ⟨c.row - 1, c.col⟩),
      (decide (c.row < totalRows - 1), ⟨c.row + 1, c.col⟩),
      (decide (0 < c.col), ⟨c.row, c.col - 1⟩),
      (decide (c.col < totalCols - 1), ⟨c.row, c.col + 1⟩) ]
    []

/-- The Manhattan-distance heuristic `h` of the source. -/
def h (a b : Coord) : Nat :=
  ((b.row : Int) - (a.row : Int)).natAbs + ((b.col : Int) - (a.col : Int)).natAbs

/-- Observation events: the callback invocations of the search
(`set_open`, `set_closed`, `set_path` marks, and `draw()` step boundaries). -/
inductive Obs where
  | openedCell : Coord → Obs
  | closedCell : Coord → Obs
  | pathCell : Coord → Obs
  | stepBoundary : Obs
deriving DecidableEq, Repr

/-- A frontier entry `(fScore, count, node)` as put on the Python
`PriorityQueue`. -/
abbrev Entry := Nat × Nat × Coord

/-- The mutable state of one `find_path` invocation. -/
structure SState where
  /-- current cell type of every coordinate (the `Node.type` fields) -/
  types : Coord → NodeType
  /-- the priority queue contents (`openNodes`) -/
  openNodes : List Entry
  /-- the membership set (`openNodesHash`) -/
  openHash : Coord → Bool
  /-- the predecessor map (`came_from`); `none` = key absent -/
  cameFrom : Coord → Option Coord
  /-- `gScore`; `none` plays the role of `float("inf")` -/
  gScore : Coord → Option Nat
  /-- `fScore`; `none` plays the role of `float("inf")` -/
  fScore : Coord → Option Nat
  /-- the insertion counter `count` -/
  count : Nat
  /-- recorded observation events -/
  trace : List Obs

/-- Lexicographic strict order on `(fScore, count)`, the order in which the
Python heap ranks entries (the third tuple component is never compared since
counter values are distinct). -/
def entryLt (a b : Entry) : Bool :=
  a.1 < b.1 || (a.1 = b.1 && a.2.1 < b.2.1)

/-- The minimal entry of the queue (first one scanned on a full tie). -/
def minEntry : List Entry → Option Entry
  | [] => none
  | e :: rest =>
    match minEntry rest with
    | none => some e
    | some m => if entryLt m e then some m else some e

/-- Remove the first occurrence of an entry. -/
def removeEntry (e : Entry) : List Entry → List Entry
  | [] => []
  | x :: rest => if x = e then rest else x :: removeEntry e rest

/-- `openNodes.get()`: extract the minimal entry and the remaining queue. -/
def popMin (l : List Entry) : Option (Entry × List Entry) :=
  match minEntry l with
  | none => none
  | some e => some (e, removeEntry e l)

/-- One neighbour-relaxation step: the body of the `for neighbor in
current.neighbors` loop of `find_path`. -/
def relaxNeighbor (goal : Coord) (cur : Coord) (st : SState) (n : Coord) :
    SState :=
  match st.gScore cur with
  | none => st
  | some gc =>
    let cand := gc + 1
    let better :=
      match st.gScore n with
      | none => true
      | some gn => decide (cand < gn)
    if better then
      let fn := cand + h n goal
      let st1 : SState :=
        { st with
          cameFrom := fun c => if c = n then some cur else st.cameFrom c
          gScore := fun c => if c = n then some cand else st.gScore c
          fScore := fun c => if c = n then some fn else st.fScore c }
      if st1.openHash n then st1
      else
        { st1 with
          count := st1.count + 1
          openNodes := st1.openNodes ++ [(fn, st1.count + 1, n)]
          openHash := fun c => if c = n then true else st1.openHash c
          types := fun c => if c = n then NodeType.OPEN else st1.types c
          trace := st1.trace ++ [Obs.openedCell n] }
    else st

/-- Expand a popped node: relax all its neighbours in order. -/
def expandNode (nbrs : Coord → List Coord) (goal : Coord) (cur : Coord)
    (st : SState) : SState :=
  (nbrs cur).foldl (relaxNeighbor goal cur) st

/-- `reconstruct_path`: walk the predecessor map from `current`, marking every
intermediate cell that is currently neither `START` nor `GOAL` as `PATH` and
emitting a `draw()` step boundary per iteration.  Returns the walked chain
(`current` first, the walk's end last) together with the final state.  The
walk is fuelled; every verified run below receives sufficient fuel. -/
def reconstruct_path (fuel : Nat) (st : SState) (current : Coord) :
    List Coord × SState :=
  match fuel with
  | 0 => ([current], st)
  | fuel + 1 =>
    match st.cameFrom current with
    | none => ([current], st)
    | some prev =>
      let st1 :=
        if st.types prev ≠ NodeType.START ∧ st.types prev ≠ NodeType.GOAL then
          { st with
            types := fun c => if c = prev then NodeType.PATH else st.types c
            trace := st.trace ++ [Obs.pathCell prev] }
        else st
      let st2 := { st1 with trace := st1.trace ++ [Obs.stepBoundary] }
      let res := reconstruct_path fuel st2 prev
      (current :: res.1, res.2)

/-- Result of one iteration of the `while not openNodes.empty()` loop. -/
inductive StepOut where
  | next (st : SState)
  | found (path : List Coord) (st : SState)
  | exhausted (st : SState)

/-- One iteration of the main loop: pop the minimal entry, remove it from the
membership set, test for the goal (marking it and reconstructing on success),
otherwise relax all neighbours, emit the `draw()` boundary, and close the
popped cell unless it is the start. -/
def stepOnce (nbrs : Coord → List Coord) (start goal : Coord) (rfuel : Nat)
    (st : SState) : StepOut :=
  match popMin st.openNodes with
  | none => StepOut.exhausted st
  | some (e, rest) =>
    let cur := e.2.2
    let st1 : SState :=
      { st with
        openNodes := rest
        openHash := fun c => if c = cur then false else st.openHash c }
    if cur = goal then
      let st2 :=
        { st1 with types := fun c => if c = cur then NodeType.GOAL else st1.types c }
      let res := reconstruct_path rfuel st2 goal
      StepOut.found res.1.reverse res.2
    else
      let st2 := expandNode nbrs goal cur st1
      let st3 := { st2 with trace := st2.trace ++ [Obs.stepBoundary] }
      let st4 :=
        if cur = start then st3
        else
          { st3 with
            types := fun c => if c = cur then NodeType.CLOSED else st3.types c
            trace := st3.trace ++ [Obs.closedCell cur] }
      StepOut.next st4

/-- The fuelled main loop of `find_path`. -/
def runLoop (nbrs : Coord → List Coord) (start goal : Coord) (rfuel : Nat) :
    Nat → SState → Option (Bool × List Coord × SState)
  | 0, _ => none
  | fuel + 1, st =>
    match stepOnce nbrs start goal rfuel st with
    | StepOut.exhausted st' => some (false, [], st')
    | StepOut.found path st' => some (true, path, st')
    | StepOut.next st' => runLoop nbrs start goal rfuel fuel st'

/-- The cell type a coordinate has in the freshly constructed level. -/
def typeAt (lvl : Level) (c : Coord) : NodeType :=
  (lvl.getD c.row []).getD c.col NodeType.UNVISITED

/-- The state at the top of `find_path`'s loop: the initial `(0, 0, start)`
entry is on the queue, `gScore[start] = 0`, `fScore[start] = h(start, goal)`,
the membership set holds `start`, and the counter is `0`. -/
def initState (lvl : Level) (start goal : Coord) : SState :=
  { types := typeAt lvl
    openNodes := [(0, 0, start)]
    openHash := fun c => decide (c = start)
    cameFrom := fun _ => none
    gScore := fun c => if c = start then some 0 else none
    fScore := fun c => if c = start then some (h start goal) else none
    count := 0
    trace := [] }

/-- Number of cells of a level (rows may be ragged in general). -/
def cellCount (lvl : Level) : Nat := (lvl.map List.length).sum

/-- Fuel for the search loop.  The Python loop is unbounded; the termination
theorem below shows this much fuel always suffices, so the fuelled loop is
observationally the Python loop. -/
def searchFuel (lvl : Level) : Nat := (cellCount lvl + 1) * (cellCount lvl + 1) + 2

/-- Fuel for the reconstruction walk; sufficiency is likewise proved. -/
def reconFuel (lvl : Level) : Nat := cellCount lvl + 1

/-- `find_path` on a level whose nodes carry `totalRows`/`totalCols`
(as fixed up by `make_level`): run the search loop from the initial state.
The returned path is the reconstructed chain reversed, i.e. listed from the
start to the goal. -/
def find_path (lvl : Level) (totalRows totalCols : Nat) (start goal : Coord) :
    Option (Bool × List Coord × SState) :=
  runLoop (update_neighbors lvl totalRows totalCols) start goal
    (reconFuel lvl) (searchFuel lvl) (initState lvl start goal)

/-- Iterate `stepOnce` exactly `k` times; `none` if the search terminated
earlier.  The states `some st` are exactly the states the search passes
through at the top of its loop. -/
def runSteps (nbrs : Coord → List Coord) (start goal : Coord) (rfuel : Nat) :
    Nat → SState → Option SState
  | 0, st => some st
  | k + 1, st =>
    match stepOnce nbrs start goal rfuel st with
    | StepOut.next st' => runSteps nbrs start goal rfuel k st'
    | _ => none

/-! ### Specification-side ground truth

The claims compare the engine against the true 4-connected grid graph:
a cell's neighbours are the in-bounds orthogonally adjacent non-obstacle
cells, reachability is closure under that adjacency, and the true shortest
distance is computed by breadth-first search. These definitions are written
directly from the specification's description of the grid graph. -/

/-- True in-bounds test on the level itself. -/
def inBounds (lvl : Level) (c : Coord) : Prop :=
  c.row < lvl.length ∧ c.col < (lvl.getD c.row []).length

/-- The 4-connected grid-graph neighbours of the specification: in-bounds
orthogonally adjacent cells that are not obstacles. -/
def gridNeighbors (lvl : Level) (c : Coord) : List Coord :=
  (( if 0 < c.row then [Coord.mk (c.row - 1) c.col] else []) ++
   ( if c.row + 1 < lvl.length then [Coord.mk (c.row + 1) c.col] else []) ++
   ( if 0 < c.col then [Coord.mk c.row (c.col - 1)] else []) ++
   ( if c.col + 1 < (lvl.getD c.row []).length then [Coord.mk c.row (c.col + 1)] else [])).filter
    (fun n => decide (n.col < (lvl.getD n.row []).length) &&
      decide (typeAt lvl n ≠ NodeType.OBSTACLE))

/-- One breadth-first expansion of a set of cells. -/
def expandSet (lvl : Level) (s : List Coord) : List Coord :=
  (s ++ s.flatMap (gridNeighbors lvl)).dedup

/-- The ball of radius `k` around `src` in the grid graph. -/
def reachN (lvl : Level) (src : Coord) : Nat → List Coord
  | 0 => [src]
  | k + 1 => expandSet lvl (reachN lvl src k)

/-- `c` is reachable from `src` through non-obstacle cells. -/
def Reachable (lvl : Level) (src c : Coord) : Prop :=
  ∃ k, c ∈ reachN lvl src k

/-- Breadth-first search: the least `k ≤ fuel` with `tgt` in the radius-`k`
ball, i.e. the true unweighted shortest-path distance in steps. -/
def bfsSearch (lvl : Level) (tgt : Coord) : Nat → List Coord → Nat → Option Nat
  | 0, s, k => if tgt ∈ s then some k else none
  | fuel + 1, s, k =>
    if tgt ∈ s then some k else bfsSearch lvl tgt fuel (expandSet lvl s) (k + 1)

/-- The true unweighted 4-connected shortest-path distance (in steps) from
`src` to `tgt`, or `none` if `tgt` is farther than the cell count (hence
unreachable). -/
def shortestDistSteps (lvl : Level) (src tgt : Coord) : Option Nat :=
  bfsSearch lvl tgt (cellCount lvl) [src] 0

/-! ### `make_level`

The parser reads the file line by line (each yielded line keeps its trailing
newline character, if any), and builds one node per character — including
one for the newline.  An unrecognized character aborts with an error, as
does a character index above `COL_LIMIT` or a line index above `ROW_LIMIT`
(both checks are strict `>` comparisons on zero-based indices).  Python's
loop variables `i` and `j` survive their loops, and the final dimensions are
computed from their last values; a run in which they were never assigned
(an empty file) would raise a `NameError`, modelled as `undefinedIndex`. -/

def ROW_LIMIT : Nat := 100

def COL_LIMIT : Nat := 100

/-- The errors on which `make_level` aborts without producing a level. -/
inductive ParseErr where
  | invalidChar (ch : Char)
  | widthLimit
  | heightLimit
  | undefinedIndex
deriving DecidableEq, Repr

/-- The node built for one character, or `none` for the invalid-character
error.  `'.'` and `'\n'` leave the node `UNVISITED`. -/
def charNode : Char → Option NodeType
  | '#' => some NodeType.OBSTACLE
  | 'S' => some NodeType.START
  | 'G' => some NodeType.GOAL
  | '.' => some NodeType.UNVISITED
  | '\n' => some NodeType.UNVISITED
  | _ => none

/-- The inner character loop of `make_level` for the line with index `i`:
builds the row's nodes, records the last `S` and `G` positions, and tracks
the last assigned value of `j`. -/
def processChars (i : Nat) :
    List Char → Nat → List NodeType → Option Coord → Option Coord → Option Nat →
    Except ParseErr (List NodeType × Option Coord × Option Coord × Option Nat)
  | [], _, acc, s, g, lastJ => Except.ok (acc.reverse, s, g, lastJ)
  | ch :: rest, j, acc, s, g, _ =>
    match charNode ch with
    | none => Except.error (ParseErr.invalidChar ch)
    | some t =>
      let s1 := if ch = 'S' then some (Coord.mk i j) else s
      let g1 := if ch = 'G' then some (Coord.mk i j) else g
      if COL_LIMIT < j then Except.error ParseErr.widthLimit
      else processChars i rest (j + 1) (t :: acc) s1 g1 (some j)

/-- The outer line loop of `make_level`. -/
def processLines :
    List (List Char) → Nat → Level → Option Coord → Option Coord → Option Nat →
    Except ParseErr (Level × Option Coord × Option Coord × Option Nat × Nat)
  | [], i, acc, s, g, lastJ => Except.ok (acc.reverse, s, g, lastJ, i)
  | line :: rest, i, acc, s, g, lastJ =>
    match processChars i line 0 [] s g lastJ with
    | Except.error e => Except.error e
    | Except.ok (row, s1, g1, lastJ1) =>
      if ROW_LIMIT < i then Except.error ParseErr.heightLimit
      else processLines rest (i + 1) (row :: acc) s1 g1 lastJ1

/-- `make_level`: parse the file's lines into a level, the recorded start and
goal cells (`none` if absent, the *last* occurrence if repeated), and the
dimensions `rows = i + 1`, `cols = j + 1` computed from the loop variables'
final values. -/
def make_level (lines : List (List Char)) :
    Except ParseErr (Level × Option Coord × Option Coord × Nat × Nat) :=
  match processLines lines 0 [] none none none with
  | Except.error e => Except.error e
  | Except.ok (lvl, s, g, lastJ, n) =>
    if n = 0 then Except.error ParseErr.undefinedIndex
    else
      match lastJ with
      | none => Except.error ParseErr.undefinedIndex
      | some j => Except.ok (lvl, s, g, n, j + 1)

/-! ### Concrete inputs used by the claims -/

/-- The grid (rows of cell types) on which the search returns a suboptimal
path.  As characters:
```
G....##
####.##
.......
.#####.
.####..
.#.....
.#.###.
...S...
```
-/
def cexLevel : Level :=
  [ [NodeType.GOAL, NodeType.UNVISITED, NodeType.UNVISITED, NodeType.UNVISITED,
     NodeType.UNVISITED, NodeType.OBSTACLE, NodeType.OBSTACLE],
    [NodeType.OBSTACLE, NodeType.OBSTACLE, NodeType.OBSTACLE, NodeType.OBSTACLE,
     NodeType.UNVISITED, NodeType.OBSTACLE, NodeType.OBSTACLE],
    [NodeType.UNVISITED, NodeType.UNVISITED, NodeType.UNVISITED, NodeType.UNVISITED,
     NodeType.UNVISITED, NodeType.UNVISITED, NodeType.UNVISITED],
    [NodeType.UNVISITED, NodeType.OBSTACLE, NodeType.OBSTACLE, NodeType.OBSTACLE,
     NodeType.OBSTACLE, NodeType.OBSTACLE, NodeType.UNVISITED],
    [NodeType.UNVISITED, NodeType.OBSTACLE, NodeType.OBSTACLE, NodeType.OBSTACLE,
     NodeType.OBSTACLE, NodeType.UNVISITED, NodeType.UNVISITED],
    [NodeType.UNVISITED, NodeType.OBSTACLE, NodeType.UNVISITED, NodeType.UNVISITED,
     NodeType.UNVISITED, NodeType.UNVISITED, NodeType.UNVISITED],
    [NodeType.UNVISITED, NodeType.OBSTACLE, NodeType.UNVISITED, NodeType.OBSTACLE,
     NodeType.OBSTACLE, NodeType.OBSTACLE, NodeType.UNVISITED],
    [NodeType.UNVISITED, NodeType.UNVISITED, NodeType.UNVISITED, NodeType.START,
     NodeType.UNVISITED, NodeType.UNVISITED, NodeType.UNVISITED] ]

def cexStart : Coord := ⟨7, 3⟩

def cexGoal : Coord := ⟨0, 0⟩

/-- A 1×3 level `S.G`. -/
def rowLevel : Level :=
  [ [NodeType.START, NodeType.UNVISITED, NodeType.GOAL] ]

/-- A 1×3 level `S#G`: the goal is walled off. -/
def blockedLevel : Level :=
  [ [NodeType.START, NodeType.OBSTACLE, NodeType.GOAL] ]

/-- A 1×1 level holding a single start cell. -/
def singleLevel : Level := [ [NodeType.START] ]

/-! ### Queue lemmas: the pop order is (fScore, insertion order) lexicographic -/

/-- Non-strict lexicographic order on `(fScore, count)`. -/
def lexLe (a b : Entry) : Prop :=
  a.1 < b.1 ∨ (a.1 = b.1 ∧ a.2.1 ≤ b.2.1)

theorem entryLt_iff (a b : Entry) :
    entryLt a b = true ↔ (a.1 < b.1 ∨ (a.1 = b.1 ∧ a.2.1 < b.2.1)) := by
  simp [entryLt]

theorem lexLe_of_not_entryLt {a b : Entry} (hab : ¬ entryLt a b = true) :
    lexLe b a := by
  rw [entryLt_iff] at hab
  push_neg at hab
  obtain ⟨h1, h2⟩ := hab
  rcases Nat.lt_or_ge b.1 a.1 with hlt | hge
  · exact Or.inl hlt
  · have heq : a.1 = b.1 := Nat.le_antisymm hge h1
    exact Or.inr ⟨heq.symm, h2 heq⟩

theorem lexLe_trans {a b c : Entry} (h1 : lexLe a b) (h2 : lexLe b c) : lexLe a c := by
  rcases h1 with h1 | ⟨h1, h1c⟩ <;> rcases h2 with h2 | ⟨h2, h2c⟩
  · exact Or.inl (Nat.lt_trans h1 h2)
  · exact Or.inl (h2 ▸ h1)
  · exact Or.inl (h1 ▸ h2)
  · exact Or.inr ⟨h1.trans h2, Nat.le_trans h1c h2c⟩

theorem lexLe_of_entryLt {a b : Entry} (hab : entryLt a b = true) : lexLe a b := by
  rw [entryLt_iff] at hab
  rcases hab with hab | ⟨hab, habc⟩
  · exact Or.inl hab
  · exact Or.inr ⟨hab, Nat.le_of_lt habc⟩

theorem minEntry_eq_none {l : List Entry} : minEntry l = none ↔ l = [] := by
  cases l with
  | nil => simp [minEntry]
  | cons x rest =>
    simp only [minEntry]
    rcases minEntry rest with _ | m0
    · simp
    · simp only
      constructor
      · intro hc
        by_cases hlt : entryLt m0 x = true
        · rw [if_pos hlt] at hc; cases hc
        · rw [if_neg hlt] at hc; cases hc
      · intro hc; cases hc

/-- The selected minimum is lexicographically at most every queue entry. -/
theorem minEntry_lexLe {l : List Entry} {m : Entry} (hm : minEntry l = some m) :
    ∀ e ∈ l, lexLe m e := by
  induction l generalizing m with
  | nil => simp [minEntry] at hm
  | cons x rest ih =>
    intro e he
    rw [minEntry] at hm
    rcases hrest : minEntry rest with _ | m0 <;> rw [hrest] at hm <;> dsimp only at hm
    · have hnil : rest = [] := minEntry_eq_none.mp hrest
      subst hnil
      simp only [Option.some.injEq] at hm
      subst hm
      rcases List.mem_cons.mp he with rfl | he2
      · exact Or.inr ⟨rfl, Nat.le_refl _⟩
      · simp at he2
    · by_cases hlt : entryLt m0 x = true
      · rw [if_pos hlt] at hm
        simp only [Option.some.injEq] at hm
        subst hm
        rcases List.mem_cons.mp he with rfl | he2
        · exact lexLe_of_entryLt hlt
        · exact ih hrest e he2
      · rw [if_neg hlt] at hm
        simp only [Option.some.injEq] at hm
        subst hm
        rcases List.mem_cons.mp he with rfl | he2
        · exact Or.inr ⟨rfl, Nat.le_refl _⟩
        · exact lexLe_trans (lexLe_of_not_entryLt hlt) (ih hrest e he2)

theorem minEntry_mem {l : List Entry} {m : Entry} (hm : minEntry l = some m) :
    m ∈ l := by
  induction l generalizing m with
  | nil => simp [minEntry] at hm
  | cons x rest ih =>
    rw [minEntry] at hm
    rcases hrest : minEntry rest with _ | m0 <;> rw [hrest] at hm <;> dsimp only at hm
    · simp only [Option.some.injEq] at hm
      subst hm
      exact List.mem_cons_self _ _
    · by_cases hlt : entryLt m0 x = true
      · rw [if_pos hlt] at hm
        simp only [Option.some.injEq] at hm
        subst hm
        exact List.mem_cons_of_mem _ (ih hrest)
      · rw [if_neg hlt] at hm
        simp only [Option.some.injEq] at hm
        subst hm
        exact List.mem_cons_self _ _

theorem popMin_spec {l : List Entry} {e : Entry} {rest : List Entry}
    (hp : popMin l = some (e, rest)) :
    e ∈ l ∧ rest = removeEntry e l ∧ ∀ e2 ∈ l, lexLe e e2 := by
  unfold popMin at hp
  rcases hm : minEntry l with _ | m <;> rw [hm] at hp
  · simp at hp
  · simp only [Option.some.injEq, Prod.mk.injEq] at hp
    obtain ⟨he, hr⟩ := hp
    subst he; subst hr
    exact ⟨minEntry_mem hm, rfl, minEntry_lexLe hm⟩

/-! ### Claim theorems: direct computations and step characterizations -/

set_option maxRecDepth 40000 in
/-- **C1.**  The claim states that on every grid with a reachable goal the
search returns a sequence whose length matches the true shortest-path
distance.  The code violates this: on `cexLevel` (goal reachable) the engine
returns `Found` with a 19-cell sequence, although the true unweighted
4-connected shortest-path distance is 16 steps, i.e. a 17-cell sequence.
The source's own comments promise the "best path" / "optimal path", so this
is a bug in the code: a node already in the frontier is never re-queued when
its score improves, so its queue entry keeps a stale priority and the goal
can be popped off before the improved route propagates. -/
theorem claim1_suboptimal_path_on_cex :
    (find_path cexLevel 8 7 cexStart cexGoal).map (fun r => (r.1, r.2.1.length))
        = some (true, 19)
      ∧ shortestDistSteps cexLevel cexStart cexGoal = some 16
      ∧ (19 : Nat) ≠ 16 + 1 :=
  ⟨by decide, by decide, by decide⟩

/-- **C4, counterexample.**  The claim asserts that initialization pushes the
entry `(fScore[start], 0, start)`.  On the 1×3 level `S.G` the heuristic
value of the start is `2 = fScore[start]`, yet the pushed entry is
`(0, 0, start)`: the source pushes priority `0` outright. -/
theorem claim4_init_entry_counterexample :
    (initState rowLevel ⟨0, 0⟩ ⟨0, 2⟩).openNodes = [(0, 0, Coord.mk 0 0)]
      ∧ (initState rowLevel ⟨0, 0⟩ ⟨0, 2⟩).fScore ⟨0, 0⟩ = some 2
      ∧ ((2, 0, Coord.mk 0 0) : Entry) ∉ (initState rowLevel ⟨0, 0⟩ ⟨0, 2⟩).openNodes :=
  ⟨rfl, by decide, by decide⟩

/-- **C4, amended.**  At initialization `gScore[start] = 0`,
`fScore[start] = h(start, goal)`, the queue holds exactly the entry
`(0, 0, start)` (priority 0, not `fScore[start]`), and the insertion counter
starts at `0`; afterwards every push is preceded by a counter increment and
the pushed entry carries the incremented value, so counter values increase
monotonically push by push. -/
theorem claim4_initialization_amended :
    ∀ (lvl : Level) (s g : Coord),
      (initState lvl s g).gScore s = some 0
      ∧ (initState lvl s g).fScore s = some (h s g)
      ∧ (initState lvl s g).openNodes = [(0, 0, s)]
      ∧ (initState lvl s g).count = 0
      ∧ ∀ (g0 cur n : Coord) (st : SState),
          ((relaxNeighbor g0 cur st n).openNodes = st.openNodes
              ∧ (relaxNeighbor g0 cur st n).count = st.count)
          ∨ ∃ fv, (relaxNeighbor g0 cur st n).openNodes
                = st.openNodes ++ [(fv, st.count + 1, n)]
              ∧ (relaxNeighbor g0 cur st n).count = st.count + 1 := by
  intro lvl s g
  refine ⟨by simp [initState], by simp [initState], rfl, rfl, ?_⟩
  intro g0 cur n st
  unfold relaxNeighbor
  rcases st.gScore cur with _ | gc
  · exact Or.inl ⟨rfl, rfl⟩
  · dsimp only
    split
    · split
      · exact Or.inl ⟨rfl, rfl⟩
      · exact Or.inr ⟨_, rfl, rfl⟩
    · exact Or.inl ⟨rfl, rfl⟩

/-- **C5.**  One neighbour-relaxation step, characterized: when the candidate
score `gScore[cur] + 1` is strictly smaller than `gScore[n]` (in particular
when `n` is undiscovered), `cameFrom[n]`, `gScore[n]` and `fScore[n]` are all
updated, and the node is pushed (with the incremented counter) and marked
`OPEN` exactly when it is not already in the frontier membership set;
otherwise — in particular on a tie — the state is left completely
unchanged. -/
theorem claim5_relaxation_characterized
    (g0 cur n : Coord) (st : SState) (gc : Nat)
    (hgc : st.gScore cur = some gc) :
    ((∀ gn, st.gScore n = some gn → gc + 1 < gn) →
        ((relaxNeighbor g0 cur st n).cameFrom n = some cur
          ∧ (relaxNeighbor g0 cur st n).gScore n = some (gc + 1)
          ∧ (relaxNeighbor g0 cur st n).fScore n = some (gc + 1 + h n g0)
          ∧ (st.openHash n = false →
              (relaxNeighbor g0 cur st n).openNodes
                  = st.openNodes ++ [(gc + 1 + h n g0, st.count + 1, n)]
                ∧ (relaxNeighbor g0 cur st n).openHash n = true
                ∧ (relaxNeighbor g0 cur st n).types n = NodeType.OPEN
                ∧ (relaxNeighbor g0 cur st n).count = st.count + 1)
          ∧ (st.openHash n = true →
              (relaxNeighbor g0 cur st n).openNodes = st.openNodes
                ∧ (relaxNeighbor g0 cur st n).types n = st.types n
                ∧ (relaxNeighbor g0 cur st n).count = st.count)))
    ∧ ((∃ gn, st.gScore n = some gn ∧ ¬ gc + 1 < gn) →
        relaxNeighbor g0 cur st n = st) := by
  constructor
  · intro himp
    have hbet : (match st.gScore n with
        | none => true
        | some gn => decide (gc + 1 < gn)) = true := by
      rcases hn : st.gScore n with _ | gn
      · rfl
      · simpa using himp gn hn
    unfold relaxNeighbor
    rw [hgc]
    dsimp only
    rw [hbet]
    rw [if_pos rfl]
    by_cases hh : st.openHash n = true
    · rw [if_pos hh]
      refine ⟨by simp, by simp, by simp, ?_, ?_⟩
      · intro hc; rw [hh] at hc; cases hc
      · intro _; exact ⟨rfl, rfl, rfl⟩
    · have hh2 : st.openHash n = false := by
        rcases hb : st.openHash n with _ | _
        · rfl
        · exact absurd hb hh
      rw [if_neg hh]
      refine ⟨by simp, by simp, by simp, ?_, ?_⟩
      · intro _; exact ⟨rfl, by simp, by simp, rfl⟩
      · intro hc; rw [hh2] at hc; cases hc
  · rintro ⟨gn, hgn, hge⟩
    unfold relaxNeighbor
    rw [hgc]
    dsimp only
    rw [hgn]
    rw [if_neg (by simpa using hge)]

/-- **C8.**  When `start = goal` (an in-bounds non-obstacle cell), the very
first iteration pops the initial entry, recognizes the goal and returns
`Found` with the single-element sequence `[start]`: the predecessor map is
still empty, so the reconstruction walk stops immediately. -/
theorem claim8_start_eq_goal (lvl : Level) (tr tc : Nat) (s : Coord)
    (hrow : s.row < lvl.length) (hcol : s.col < (lvl.getD s.row []).length)
    (hob : typeAt lvl s ≠ NodeType.OBSTACLE) :
    (find_path lvl tr tc s s).map (fun r => (r.1, r.2.1)) = some (true, [s]) := by
  have hpop : popMin (initState lvl s s).openNodes = some ((0, 0, s), []) := by
    simp [initState, popMin, minEntry, removeEntry]
  unfold find_path searchFuel
  rw [show (cellCount lvl + 1) * (cellCount lvl + 1) + 2
        = (cellCount lvl + 1) * (cellCount lvl + 1) + 1 + 1 from rfl]
  rw [runLoop, stepOnce, hpop]
  dsimp only
  rw [if_pos rfl]
  rfl

/-- **C3.**  Determinism and the tie-break rule.  First, `find_path` is a
pure function of the level, start and goal: two invocations on equal inputs
return identical results — in particular identical path sequences and
identical observation-event traces.  Second, the frontier pop always selects
an entry that is lexicographically minimal in `(fScore, insertion order)`:
among entries of equal `fScore` an entry with the least insertion order —
the first inserted — is popped, i.e. ties in `fScore` are broken FIFO. -/
theorem claim3_deterministic_fifo :
    (∀ (lvl lvl2 : Level) (tr tc : Nat) (s g s2 g2 : Coord),
        lvl = lvl2 → s = s2 → g = g2 →
        find_path lvl tr tc s g = find_path lvl2 tr tc s2 g2
          ∧ (find_path lvl tr tc s g).map (fun r => r.2.2.trace)
              = (find_path lvl2 tr tc s2 g2).map (fun r => r.2.2.trace))
    ∧ (∀ (l : List Entry) (e : Entry) (rest : List Entry),
        popMin l = some (e, rest) →
        ∀ e2 ∈ l, e.1 < e2.1 ∨ (e.1 = e2.1 ∧ e.2.1 ≤ e2.2.1)) := by
  constructor
  · intro lvl lvl2 tr tc s g s2 g2 h1 h2 h3
    subst h1; subst h2; subst h3
    exact ⟨rfl, rfl⟩
  · intro l e rest hp e2 he2
    exact (popMin_spec hp).2.2 e2 he2

/-- Witness for C8: on the 1×1 level holding only a start cell,
`find_path` with `goal = start` returns `Found [⟨0,0⟩]`. -/
theorem claim8_start_eq_goal_witness :
    (0 < singleLevel.length ∧ 0 < (singleLevel.getD 0 []).length
        ∧ typeAt singleLevel ⟨0, 0⟩ ≠ NodeType.OBSTACLE)
      ∧ (find_path singleLevel 1 1 ⟨0, 0⟩ ⟨0, 0⟩).map (fun r => (r.1, r.2.1))
          = some (true, [⟨0, 0⟩]) :=
  ⟨⟨by decide, by decide, by decide⟩,
   claim8_start_eq_goal singleLevel 1 1 ⟨0, 0⟩ (by decide) (by decide) (by decide)⟩

/-- Witness for C3: determinism applied to the `S.G` level, and the FIFO
tie-break applied to a concrete queue with an `fScore` tie. -/
theorem claim3_deterministic_fifo_witness :
    (find_path rowLevel 1 3 ⟨0, 0⟩ ⟨0, 2⟩ = find_path rowLevel 1 3 ⟨0, 0⟩ ⟨0, 2⟩)
      ∧ (popMin [(5, 7, Coord.mk 0 1), (5, 3, Coord.mk 0 0)]
            = some ((5, 3, Coord.mk 0 0), [(5, 7, Coord.mk 0 1)])
          ∧ ((5 : Nat) < 5 ∨ ((5 : Nat) = 5 ∧ (3 : Nat) ≤ 7))) :=
  ⟨(claim3_deterministic_fifo.1 rowLevel rowLevel 1 3 ⟨0, 0⟩ ⟨0, 2⟩ ⟨0, 0⟩ ⟨0, 2⟩
      rfl rfl rfl).1,
   by decide,
   claim3_deterministic_fifo.2 [(5, 7, ⟨0, 1⟩), (5, 3, ⟨0, 0⟩)] (5, 3, ⟨0, 0⟩)
     [(5, 7, ⟨0, 1⟩)] (by decide) (5, 7, ⟨0, 1⟩) (by decide)⟩

/-- Witness for C5: a concrete relaxation step.  In the initial state of the
`S.G` search the start has score 0; relaxing its neighbour `(0,1)` (score
`∞`) updates all three maps and pushes `(2, 1, (0,1))`. -/
theorem claim5_relaxation_characterized_witness :
    ((initState rowLevel ⟨0, 0⟩ ⟨0, 2⟩).gScore ⟨0, 0⟩ = some 0)
      ∧ ((relaxNeighbor ⟨0, 2⟩ ⟨0, 0⟩ (initState rowLevel ⟨0, 0⟩ ⟨0, 2⟩)
            ⟨0, 1⟩).cameFrom ⟨0, 1⟩ = some ⟨0, 0⟩
          ∧ (relaxNeighbor ⟨0, 2⟩ ⟨0, 0⟩ (initState rowLevel ⟨0, 0⟩ ⟨0, 2⟩)
              ⟨0, 1⟩).gScore ⟨0, 1⟩ = some 1) := by
  have hchar := claim5_relaxation_characterized ⟨0, 2⟩ ⟨0, 0⟩ ⟨0, 1⟩
    (initState rowLevel ⟨0, 0⟩ ⟨0, 2⟩) 0 (by decide)
  have hres := hchar.1 (by intro gn hgn; simp [initState] at hgn)
  exact ⟨by decide, hres.1, by simpa using hres.2.1⟩

/-! ### C9: `make_level` error characterization -/

/-- A ragged two-line input with two `S` cells and no `G` cell:
`"SS\n"` followed by `"...\n"`. -/
def cex9Lines : List (List Char) :=
  [ ['S', 'S', '\n'], ['.', '.', '.', '\n'] ]

theorem processChars_error_iff (i : Nat) :
    ∀ (line : List Char) (j : Nat) (acc : List NodeType) (s g : Option Coord)
      (lj : Option Nat),
      (∃ e, processChars i line j acc s g lj = Except.error e)
        ↔ ((∃ ch ∈ line, charNode ch = none)
            ∨ (line ≠ [] ∧ COL_LIMIT + 2 ≤ j + line.length)) := by
  intro line
  induction line with
  | nil =>
    intro j acc s g lj
    simp [processChars]
  | cons ch rest ih =>
    intro j acc s g lj
    rw [processChars]
    rcases hcn : charNode ch with _ | t
    · simp only
      constructor
      · intro _
        exact Or.inl ⟨ch, List.mem_cons_self _ _, hcn⟩
      · intro _
        exact ⟨ParseErr.invalidChar ch, rfl⟩
    · simp only
      by_cases hj : COL_LIMIT < j
      · rw [if_pos hj]
        constructor
        · intro _
          refine Or.inr ⟨by simp, ?_⟩
          have hlen : (ch :: rest).length = rest.length + 1 := by simp
          omega
        · intro _
          exact ⟨ParseErr.widthLimit, rfl⟩
      · rw [if_neg hj]
        rw [ih (j + 1) (t :: acc) (if ch = 'S' then some (Coord.mk i j) else s)
          (if ch = 'G' then some (Coord.mk i j) else g) (some j)]
        constructor
        · rintro (⟨ch2, hmem, hbad⟩ | ⟨hn, hlen⟩)
          · exact Or.inl ⟨ch2, List.mem_cons_of_mem _ hmem, hbad⟩
          · refine Or.inr ⟨by simp, ?_⟩
            have : (ch :: rest).length = rest.length + 1 := by simp
            omega
        · rintro (⟨ch2, hmem, hbad⟩ | ⟨_, hlen⟩)
          · rcases List.mem_cons.mp hmem with rfl | hmem2
            · rw [hcn] at hbad
              cases hbad
            · exact Or.inl ⟨ch2, hmem2, hbad⟩
          · cases rest with
            | nil =>
              exfalso
              simp [COL_LIMIT] at hlen hj
              omega
            | cons r2 t2 =>
              refine Or.inr ⟨by simp, ?_⟩
              have : (ch :: r2 :: t2).length = (r2 :: t2).length + 1 := by simp
              omega

theorem processChars_ok_lastJ (i : Nat) :
    ∀ (line : List Char) (j : Nat) (acc : List NodeType) (s g : Option Coord)
      (j0 : Nat) (out : List NodeType × Option Coord × Option Coord × Option Nat),
      processChars i line j acc s g (some j0) = Except.ok out →
      ∃ jj, out.2.2.2 = some jj := by
  intro line
  induction line with
  | nil =>
    intro j acc s g j0 out hok
    rw [processChars] at hok
    cases hok
    exact ⟨j0, rfl⟩
  | cons ch rest ih =>
    intro j acc s g j0 out hok
    rw [processChars] at hok
    rcases hcn : charNode ch with _ | t <;> rw [hcn] at hok
    · cases hok
    · dsimp only at hok
      by_cases hj : COL_LIMIT < j
      · rw [if_pos hj] at hok
        cases hok
      · rw [if_neg hj] at hok
        exact ih (j + 1) (t :: acc) _ _ j out hok

theorem processChars_ok_lastJ_of_ne (i : Nat) (line : List Char) (hne : line ≠ [])
    (j : Nat) (acc : List NodeType) (s g : Option Coord) (lj : Option Nat)
    (out : List NodeType × Option Coord × Option Coord × Option Nat)
    (hok : processChars i line j acc s g lj = Except.ok out) :
    ∃ jj, out.2.2.2 = some jj := by
  cases line with
  | nil => exact absurd rfl hne
  | cons ch rest =>
    rw [processChars] at hok
    rcases hcn : charNode ch with _ | t <;> rw [hcn] at hok
    · cases hok
    · dsimp only at hok
      by_cases hj : COL_LIMIT < j
      · rw [if_pos hj] at hok
        cases hok
      · rw [if_neg hj] at hok
        exact processChars_ok_lastJ i rest (j + 1) (t :: acc) _ _ j out hok

theorem processLines_error_iff :
    ∀ (lines : List (List Char)) (i : Nat) (acc : Level) (s g : Option Coord)
      (lj : Option Nat),
      (∃ e, processLines lines i acc s g lj = Except.error e)
        ↔ ((∃ l ∈ lines, (∃ ch ∈ l, charNode ch = none) ∨ COL_LIMIT + 2 ≤ l.length)
            ∨ (lines ≠ [] ∧ ROW_LIMIT + 2 ≤ i + lines.length)) := by
  intro lines
  induction lines with
  | nil =>
    intro i acc s g lj
    simp [processLines]
  | cons line rest ih =>
    intro i acc s g lj
    rw [processLines]
    rcases hpc : processChars i line 0 [] s g lj with e | out
    · simp only
      constructor
      · intro _
        have herr : ∃ e2, processChars i line 0 [] s g lj = Except.error e2 := ⟨e, hpc⟩
        rcases (processChars_error_iff i line 0 [] s g lj).mp herr with hbad | ⟨hn, hlen⟩
        · exact Or.inl ⟨line, List.mem_cons_self _ _, Or.inl hbad⟩
        · exact Or.inl ⟨line, List.mem_cons_self _ _, Or.inr (by omega)⟩
      · intro _
        exact ⟨e, rfl⟩
    · obtain ⟨row, s1, g1, lj1⟩ := out
      simp only
      by_cases hi : ROW_LIMIT < i
      · rw [if_pos hi]
        constructor
        · intro _
          refine Or.inr ⟨by simp, ?_⟩
          have : (line :: rest).length = rest.length + 1 := by simp
          omega
        · intro _
          exact ⟨ParseErr.heightLimit, rfl⟩
      · rw [if_neg hi]
        rw [ih (i + 1) (row :: acc) s1 g1 lj1]
        constructor
        · rintro (⟨l2, hmem, hc⟩ | ⟨hn, hlen⟩)
          · exact Or.inl ⟨l2, List.mem_cons_of_mem _ hmem, hc⟩
          · refine Or.inr ⟨by simp, ?_⟩
            have : (line :: rest).length = rest.length + 1 := by simp
            omega
        · rintro (⟨l2, hmem, hc⟩ | ⟨_, hlen⟩)
          · rcases List.mem_cons.mp hmem with rfl | hmem2
            · exfalso
              have hne : ¬ ∃ e2, processChars i l2 0 [] s g lj = Except.error e2 := by
                intro ⟨e2, he2⟩
                rw [hpc] at he2
                cases he2
              rcases hc with hbad | hlen2
              · exact hne ((processChars_error_iff i l2 0 [] s g lj).mpr (Or.inl hbad))
              · refine hne ((processChars_error_iff i l2 0 [] s g lj).mpr (Or.inr ⟨?_, by omega⟩))
                intro hemp
                rw [hemp] at hlen2
                simp [COL_LIMIT] at hlen2
            · exact Or.inl ⟨l2, hmem2, hc⟩
          · cases rest with
            | nil =>
              exfalso
              simp [ROW_LIMIT] at hlen hi
              omega
            | cons r2 t2 =>
              refine Or.inr ⟨by simp, ?_⟩
              have : (line :: r2 :: t2).length = (r2 :: t2).length + 1 := by simp
              omega

theorem processLines_ok_lastJ :
    ∀ (lines : List (List Char)) (hlne : ∀ l ∈ lines, l ≠ []) (i : Nat) (acc : Level)
      (s g : Option Coord) (lj : Option Nat)
      (out : Level × Option Coord × Option Coord × Option Nat × Nat),
      processLines lines i acc s g lj = Except.ok out →
      lines ≠ [] → ∃ jj, out.2.2.2.1 = some jj := by
  intro lines
  induction lines with
  | nil =>
    intro hlne i acc s g lj out hok hne
    exact absurd rfl hne
  | cons line rest ih =>
    intro hlne i acc s g lj out hok hne
    rw [processLines] at hok
    rcases hpc : processChars i line 0 [] s g lj with e | pcout <;> rw [hpc] at hok
    · cases hok
    · obtain ⟨row, s1, g1, lj1⟩ := pcout
      dsimp only at hok
      by_cases hi : ROW_LIMIT < i
      · rw [if_pos hi] at hok
        cases hok
      · rw [if_neg hi] at hok
        obtain ⟨jj, hjj⟩ := processChars_ok_lastJ_of_ne i line
          (hlne line (List.mem_cons_self _ _)) 0 [] s g lj _ hpc
        cases rest with
        | nil =>
          rw [processLines] at hok
          cases hok
          exact ⟨jj, hjj⟩
        | cons l2 t2 =>
          exact ih (fun l hl => hlne l (List.mem_cons_of_mem _ hl)) (i + 1)
            (row :: acc) s1 g1 lj1 out hok (by simp)

theorem processLines_ok_rows :
    ∀ (lines : List (List Char)) (i : Nat) (acc : Level) (s g : Option Coord)
      (lj : Option Nat) (out : Level × Option Coord × Option Coord × Option Nat × Nat),
      processLines lines i acc s g lj = Except.ok out →
      out.2.2.2.2 = i + lines.length := by
  intro lines
  induction lines with
  | nil =>
    intro i acc s g lj out hok
    rw [processLines] at hok
    cases hok
    simp
  | cons line rest ih =>
    intro i acc s g lj out hok
    rw [processLines] at hok
    rcases hpc : processChars i line 0 [] s g lj with e | pcout <;> rw [hpc] at hok
    · cases hok
    · obtain ⟨row, s1, g1, lj1⟩ := pcout
      dsimp only at hok
      by_cases hi : ROW_LIMIT < i
      · rw [if_pos hi] at hok
        cases hok
      · rw [if_neg hi] at hok
        have := ih (i + 1) (row :: acc) s1 g1 lj1 out hok
        rw [this]
        simp
        omega

/-- **C9, counterexample.**  The claim says construction must fail on ragged
rows, on a start-cell count other than one, and on a goal-cell count other
than one.  The parser accepts `cex9Lines` — whose rows have different
lengths, which contains two `S` and which contains no `G` — and returns a
grid: none of those conditions is checked. -/
theorem claim9_accepts_invalid_counterexample :
    (∃ v, make_level cex9Lines = Except.ok v)
      ∧ cex9Lines.map List.length = [3, 4]
      ∧ (cex9Lines.flatten.filter (fun ch => ch = 'S')).length = 2
      ∧ (cex9Lines.flatten.filter (fun ch => ch = 'G')).length = 0 :=
  ⟨⟨_, rfl⟩, by decide, by decide, by decide⟩

/-- **C9, amended.**  For a non-empty input whose lines are non-empty (as
file iteration yields them), construction fails — with no partial grid
returned — if and only if the input contains a character other than
`#`, `S`, `G`, `.` or a newline, or some line is longer than 101 characters
(the zero-based column index check `j > 100` fires while a 101-character
line, newline included, still passes), or there are more than 101 lines
(the row check `i > 100` likewise fires only from the 102nd line on).
Ragged rows and the number of `S`/`G` cells are never validated. -/
theorem claim9_parse_failure_amended (lines : List (List Char))
    (hne : lines ≠ []) (hlne : ∀ l ∈ lines, l ≠ []) :
    (∃ e, make_level lines = Except.error e)
      ↔ ((∃ l ∈ lines, ∃ ch ∈ l, charNode ch = none)
          ∨ (∃ l ∈ lines, COL_LIMIT + 2 ≤ l.length)
          ∨ ROW_LIMIT + 2 ≤ lines.length) := by
  unfold make_level
  rcases hpl : processLines lines 0 [] none none none with e | out
  · simp only
    constructor
    · intro _
      rcases (processLines_error_iff lines 0 [] none none none).mp ⟨e, hpl⟩ with
        ⟨l2, hmem, hbad | hlen⟩ | ⟨_, hlen⟩
      · exact Or.inl ⟨l2, hmem, hbad⟩
      · exact Or.inr (Or.inl ⟨l2, hmem, hlen⟩)
      · exact Or.inr (Or.inr (by omega))
    · intro _
      exact ⟨e, rfl⟩
  · obtain ⟨lvl, s, g, lj, n⟩ := out
    have hn : n = 0 + lines.length := processLines_ok_rows lines 0 [] none none none _ hpl
    have hn2 : n ≠ 0 := by
      rw [hn]
      cases lines with
      | nil => exact absurd rfl hne
      | cons l2 t2 => simp
    obtain ⟨jj, hjj⟩ := processLines_ok_lastJ lines hlne 0 [] none none none _ hpl hne
    dsimp only
    rw [if_neg hn2]
    simp only at hjj
    rw [hjj]
    dsimp only
    constructor
    · rintro ⟨e, he⟩
      cases he
    · intro hrhs
      exfalso
      have herr : ∃ e, processLines lines 0 [] none none none = Except.error e := by
        refine (processLines_error_iff lines 0 [] none none none).mpr ?_
        rcases hrhs with ⟨l2, hmem, hbad⟩ | ⟨l2, hmem, hlen⟩ | hrows
        · exact Or.inl ⟨l2, hmem, Or.inl hbad⟩
        · exact Or.inl ⟨l2, hmem, Or.inr hlen⟩
        · exact Or.inr ⟨hne, by omega⟩
      rw [hpl] at herr
      obtain ⟨e, he⟩ := herr
      cases he

/-- Witness for the amended C9: the single-line input `"a"` is non-empty,
has no empty line, and fails (its character is invalid). -/
theorem claim9_parse_failure_amended_witness :
    (([['a']] : List (List Char)) ≠ [] ∧ ∀ l ∈ ([['a']] : List (List Char)), l ≠ [])
      ∧ (∃ e, make_level [['a']] = Except.error e) :=
  ⟨⟨by decide, by decide⟩,
   (claim9_parse_failure_amended [['a']] (by decide) (by decide)).mpr (by decide)⟩

/-! ### Cells and neighbour characterizations -/

/-- All coordinates of a level (row index paired with each column index of
that row; rows may be ragged). -/
def cells (lvl : Level) : List Coord :=
  (List.range lvl.length).flatMap (fun r =>
    (List.range (lvl.getD r []).length).map (fun c => Coord.mk r c))

theorem mem_cells {lvl : Level} {c : Coord} :
    c ∈ cells lvl ↔ c.row < lvl.length ∧ c.col < (lvl.getD c.row []).length := by
  unfold cells
  simp only [List.mem_flatMap, List.mem_map, List.mem_range]
  constructor
  · rintro ⟨r, hr, cc, hcc, rfl⟩
    exact ⟨hr, hcc⟩
  · rintro ⟨hr, hcc⟩
    exact ⟨c.row, hr, c.col, hcc, rfl⟩

theorem nodup_row_block (r : Nat) (m : Nat) :
    ((List.range m).map (fun c => Coord.mk r c)).Nodup :=
  List.Nodup.map (fun a b hab => by cases hab; rfl) (List.nodup_range _)

theorem nodup_flatMap_rows (f : Nat → Nat) :
    ∀ (l : List Nat), l.Nodup →
      (l.flatMap (fun r => (List.range (f r)).map (fun c => Coord.mk r c))).Nodup := by
  intro l
  induction l with
  | nil => intro _; simp
  | cons r rest ih =>
    intro hnd
    rw [List.flatMap_cons]
    refine List.Nodup.append (nodup_row_block r (f r)) (ih (List.nodup_cons.mp hnd).2) ?_
    intro c hc1 hc2
    simp only [List.mem_map, List.mem_range] at hc1
    obtain ⟨cc, _, rfl⟩ := hc1
    simp only [List.mem_flatMap, List.mem_map, List.mem_range] at hc2
    obtain ⟨r2, hr2, cc2, _, heq⟩ := hc2
    have : r2 = r := by cases heq; rfl
    subst this
    exact (List.nodup_cons.mp hnd).1 hr2

theorem cells_nodup (lvl : Level) : (cells lvl).Nodup :=
  nodup_flatMap_rows (fun r => (lvl.getD r []).length) (List.range lvl.length)
    (List.nodup_range _)

theorem sum_range_getD (lvl : Level) :
    ((List.range lvl.length).map (fun r => (lvl.getD r []).length)).sum
      = (lvl.map List.length).sum := by
  induction lvl with
  | nil => simp
  | cons row rest ih =>
    rw [List.length_cons, List.range_succ_eq_map, List.map_cons, List.map_map,
      List.sum_cons]
    have h2 : ((List.range rest.length).map
          ((fun r => ((row :: rest).getD r []).length) ∘ Nat.succ))
        = ((List.range rest.length).map (fun r => (rest.getD r []).length)) :=
      List.map_congr_left (fun a _ => by simp [Function.comp, List.getD_cons_succ])
    rw [h2, ih]
    simp

theorem cells_length (lvl : Level) : (cells lvl).length = cellCount lvl := by
  unfold cells cellCount
  rw [List.length_flatMap]
  rw [← sum_range_getD lvl]
  congr 1
  simp [List.map_map, Function.comp]

theorem tryCell_eq {lvl : Level} {r c : Nat} (hr : r < lvl.length)
    (hc : c < (lvl.getD r []).length) :
    tryCell lvl r c = some (typeAt lvl (Coord.mk r c)) := by
  have h1 : List.getD lvl r [] = lvl[r] := by
    rw [List.getD_eq_getElem?_getD, List.getElem?_eq_getElem hr]
    rfl
  have hc2 : c < lvl[r].length := by
    rw [← h1]
    exact hc
  unfold tryCell typeAt
  rw [List.get?_eq_getElem?, List.getElem?_eq_getElem hr]
  dsimp only
  rw [List.get?_eq_getElem?, List.getElem?_eq_getElem hc2, h1,
    List.getD_eq_getElem?_getD, List.getElem?_eq_getElem hc2]
  rfl

/-- When every guarded candidate's cell access succeeds, `update_neighbors`'
scan is a plain filter: no `IndexError` abort happens. -/
theorem neighborsGo_eq (lvl : Level) :
    ∀ (cands : List (Bool × Coord)) (acc : List Coord),
      (∀ p ∈ cands, p.1 = true →
        tryCell lvl p.2.row p.2.col = some (typeAt lvl p.2)) →
      neighborsGo lvl cands acc
        = acc.reverse ++ (cands.filter (fun p =>
            p.1 && decide (typeAt lvl p.2 ≠ NodeType.OBSTACLE))).map (fun p => p.2) := by
  intro cands
  induction cands with
  | nil =>
    intro acc _
    simp [neighborsGo]
  | cons p rest ih =>
    intro acc hok
    obtain ⟨g, n⟩ := p
    rw [neighborsGo]
    by_cases hg : g = true
    · subst hg
      rw [if_pos rfl]
      rw [hok (true, n) (List.mem_cons_self _ _) rfl]
      dsimp only
      by_cases hob : typeAt lvl n = NodeType.OBSTACLE
      · rw [if_pos hob]
        rw [ih acc (fun q hq => hok q (List.mem_cons_of_mem _ hq))]
        rw [List.filter_cons]
        simp [hob]
      · rw [if_neg hob]
        rw [ih (n :: acc) (fun q hq => hok q (List.mem_cons_of_mem _ hq))]
        rw [List.filter_cons]
        simp [hob]
    · have hg2 : g = false := by
        cases g
        · rfl
        · exact absurd rfl hg
      subst hg2
      rw [if_neg (by simp)]
      rw [ih acc (fun q hq => hok q (List.mem_cons_of_mem _ hq))]
      rw [List.filter_cons]
      simp

/-- Well-formedness of a search instance: the level is rectangular with the
announced dimensions, and the start and goal are in-bounds cells of type
`START` and `GOAL`. -/
structure Wf (lvl : Level) (tr tc : Nat) (start goal : Coord) : Prop where
  rows_eq : lvl.length = tr
  rect : ∀ row ∈ lvl, row.length = tc
  start_mem : start ∈ cells lvl
  goal_mem : goal ∈ cells lvl
  start_type : typeAt lvl start = NodeType.START
  goal_type : typeAt lvl goal = NodeType.GOAL

theorem Wf.row_len {lvl : Level} {tr tc : Nat} {s g : Coord}
    (hwf : Wf lvl tr tc s g) {r : Nat} (hr : r < lvl.length) :
    (lvl.getD r []).length = tc := by
  apply hwf.rect
  rw [List.getD_eq_getElem?_getD, List.getElem?_eq_getElem hr]
  exact List.getElem_mem _

theorem Wf.start_ne_goal {lvl : Level} {tr tc : Nat} {s g : Coord}
    (hwf : Wf lvl tr tc s g) : s ≠ g := by
  intro hc
  have h1 := hwf.start_type
  rw [hc, hwf.goal_type] at h1
  cases h1

/-- Membership characterization of `update_neighbors` on a well-formed
instance: exactly the four guarded candidates that are not obstacles. -/
theorem mem_update_neighbors_iff {lvl : Level} {tr tc : Nat} {s g : Coord}
    (hwf : Wf lvl tr tc s g) {c : Coord} (hc : c ∈ cells lvl) {n : Coord} :
    n ∈ update_neighbors lvl tr tc c
      ↔ (typeAt lvl n ≠ NodeType.OBSTACLE
          ∧ ((0 < c.row ∧ n = Coord.mk (c.row - 1) c.col)
            ∨ (c.row < tr - 1 ∧ n = Coord.mk (c.row + 1) c.col)
            ∨ (0 < c.col ∧ n = Coord.mk c.row (c.col - 1))
            ∨ (c.col < tc - 1 ∧ n = Coord.mk c.row (c.col + 1)))) := by
  obtain ⟨hrow, hcol⟩ := mem_cells.mp hc
  have hrl : (lvl.getD c.row []).length = tc := hwf.row_len hrow
  have htc : c.col < tc := hrl ▸ hcol
  unfold update_neighbors
  rw [neighborsGo_eq]
  · simp only [List.reverse_nil, List.nil_append, List.mem_map, List.mem_filter]
    constructor
    · rintro ⟨p, hp, rfl⟩
      obtain ⟨hpmem, hpcond⟩ := hp
      rw [Bool.and_eq_true, decide_eq_true_eq] at hpcond
      simp only [List.mem_cons, List.not_mem_nil, or_false] at hpmem
      rcases hpmem with rfl | rfl | rfl | rfl
      · rw [decide_eq_true_eq] at hpcond
        exact ⟨hpcond.2, Or.inl ⟨hpcond.1, rfl⟩⟩
      · rw [decide_eq_true_eq] at hpcond
        exact ⟨hpcond.2, Or.inr (Or.inl ⟨hpcond.1, rfl⟩)⟩
      · rw [decide_eq_true_eq] at hpcond
        exact ⟨hpcond.2, Or.inr (Or.inr (Or.inl ⟨hpcond.1, rfl⟩))⟩
      · rw [decide_eq_true_eq] at hpcond
        exact ⟨hpcond.2, Or.inr (Or.inr (Or.inr ⟨hpcond.1, rfl⟩))⟩
    · rintro ⟨hob, hcase⟩
      rcases hcase with ⟨hg, rfl⟩ | ⟨hg, rfl⟩ | ⟨hg, rfl⟩ | ⟨hg, rfl⟩
      · refine ⟨(decide (0 < c.row), Coord.mk (c.row - 1) c.col),
          ⟨List.mem_cons_self _ _, ?_⟩, rfl⟩
        show (decide (0 < c.row) && decide (typeAt lvl (Coord.mk (c.row - 1) c.col)
          ≠ NodeType.OBSTACLE)) = true
        rw [decide_eq_true hg, decide_eq_true hob]
        rfl
      · refine ⟨(decide (c.row < tr - 1), Coord.mk (c.row + 1) c.col),
          ⟨List.mem_cons_of_mem _ (List.mem_cons_self _ _), ?_⟩, rfl⟩
        show (decide (c.row < tr - 1) && decide (typeAt lvl (Coord.mk (c.row + 1) c.col)
          ≠ NodeType.OBSTACLE)) = true
        rw [decide_eq_true hg, decide_eq_true hob]
        rfl
      · refine ⟨(decide (0 < c.col), Coord.mk c.row (c.col - 1)),
          ⟨List.mem_cons_of_mem _ (List.mem_cons_of_mem _
            (List.mem_cons_self _ _)), ?_⟩, rfl⟩
        show (decide (0 < c.col) && decide (typeAt lvl (Coord.mk c.row (c.col - 1))
          ≠ NodeType.OBSTACLE)) = true
        rw [decide_eq_true hg, decide_eq_true hob]
        rfl
      · refine ⟨(decide (c.col < tc - 1), Coord.mk c.row (c.col + 1)),
          ⟨List.mem_cons_of_mem _ (List.mem_cons_of_mem _
            (List.mem_cons_of_mem _ (List.mem_cons_self _ _))), ?_⟩, rfl⟩
        show (decide (c.col < tc - 1) && decide (typeAt lvl (Coord.mk c.row (c.col + 1))
          ≠ NodeType.OBSTACLE)) = true
        rw [decide_eq_true hg, decide_eq_true hob]
        rfl
  · intro p hp hpg
    simp only [List.mem_cons, List.not_mem_nil, or_false] at hp
    rcases hp with rfl | rfl | rfl | rfl
    · have hg : 0 < c.row := of_decide_eq_true hpg
      show tryCell lvl (c.row - 1) c.col = some (typeAt lvl (Coord.mk (c.row - 1) c.col))
      refine tryCell_eq (by omega) ?_
      rw [hwf.row_len (show c.row - 1 < lvl.length by omega)]
      omega
    · have hg : c.row < tr - 1 := of_decide_eq_true hpg
      have hr2 : c.row + 1 < lvl.length := by
        have := hwf.rows_eq
        omega
      show tryCell lvl (c.row + 1) c.col = some (typeAt lvl (Coord.mk (c.row + 1) c.col))
      refine tryCell_eq hr2 ?_
      rw [hwf.row_len hr2]
      omega
    · show tryCell lvl c.row (c.col - 1) = some (typeAt lvl (Coord.mk c.row (c.col - 1)))
      refine tryCell_eq hrow ?_
      rw [hrl]
      omega
    · have hg : c.col < tc - 1 := of_decide_eq_true hpg
      show tryCell lvl c.row (c.col + 1) = some (typeAt lvl (Coord.mk c.row (c.col + 1)))
      refine tryCell_eq hrow ?_
      rw [hrl]
      omega

/-- Membership characterization of the specification-side grid-graph
adjacency. -/
theorem mem_gridNeighbors_iff {lvl : Level} {c n : Coord} :
    n ∈ gridNeighbors lvl c
      ↔ (n.col < (lvl.getD n.row []).length ∧ typeAt lvl n ≠ NodeType.OBSTACLE
          ∧ ((0 < c.row ∧ n = Coord.mk (c.row - 1) c.col)
            ∨ (c.row + 1 < lvl.length ∧ n = Coord.mk (c.row + 1) c.col)
            ∨ (0 < c.col ∧ n = Coord.mk c.row (c.col - 1))
            ∨ (c.col + 1 < (lvl.getD c.row []).length ∧ n = Coord.mk c.row (c.col + 1)))) := by
  unfold gridNeighbors
  rw [List.mem_filter]
  simp only [List.mem_append, Bool.and_eq_true, decide_eq_true_eq]
  constructor
  · rintro ⟨hmem, hcol, hob⟩
    refine ⟨hcol, hob, ?_⟩
    rcases hmem with ((h1 | h2) | h3) | h4
    · by_cases hg : 0 < c.row
      · rw [if_pos hg] at h1
        exact Or.inl ⟨hg, List.mem_singleton.mp h1⟩
      · rw [if_neg hg] at h1
        cases h1
    · by_cases hg : c.row + 1 < lvl.length
      · rw [if_pos hg] at h2
        exact Or.inr (Or.inl ⟨hg, List.mem_singleton.mp h2⟩)
      · rw [if_neg hg] at h2
        cases h2
    · by_cases hg : 0 < c.col
      · rw [if_pos hg] at h3
        exact Or.inr (Or.inr (Or.inl ⟨hg, List.mem_singleton.mp h3⟩))
      · rw [if_neg hg] at h3
        cases h3
    · by_cases hg : c.col + 1 < (lvl.getD c.row []).length
      · rw [if_pos hg] at h4
        exact Or.inr (Or.inr (Or.inr ⟨hg, List.mem_singleton.mp h4⟩))
      · rw [if_neg hg] at h4
        cases h4
  · rintro ⟨hcol, hob, hcase⟩
    refine ⟨?_, hcol, hob⟩
    rcases hcase with ⟨hg, rfl⟩ | ⟨hg, rfl⟩ | ⟨hg, rfl⟩ | ⟨hg, rfl⟩
    · exact Or.inl (Or.inl (Or.inl (by rw [if_pos hg]; exact List.mem_singleton.mpr rfl)))
    · exact Or.inl (Or.inl (Or.inr (by rw [if_pos hg]; exact List.mem_singleton.mpr rfl)))
    · exact Or.inl (Or.inr (by rw [if_pos hg]; exact List.mem_singleton.mpr rfl))
    · exact Or.inr (by rw [if_pos hg]; exact List.mem_singleton.mpr rfl)

/-- On a well-formed instance the engine's neighbour computation agrees with
the specification's grid-graph adjacency at every cell. -/
theorem mem_update_iff_grid {lvl : Level} {tr tc : Nat} {s g : Coord}
    (hwf : Wf lvl tr tc s g) {c : Coord} (hc : c ∈ cells lvl) {n : Coord} :
    n ∈ update_neighbors lvl tr tc c ↔ n ∈ gridNeighbors lvl c := by
  obtain ⟨hrow, hcol⟩ := mem_cells.mp hc
  have hrl : (lvl.getD c.row []).length = tc := hwf.row_len hrow
  have hre := hwf.rows_eq
  rw [mem_update_neighbors_iff hwf hc, mem_gridNeighbors_iff]
  constructor
  · rintro ⟨hob, hcase⟩
    rcases hcase with ⟨hg, rfl⟩ | ⟨hg, rfl⟩ | ⟨hg, rfl⟩ | ⟨hg, rfl⟩
    · refine ⟨?_, hob, Or.inl ⟨hg, rfl⟩⟩
      rw [hwf.row_len (show c.row - 1 < lvl.length by omega)]
      show c.col < tc
      omega
    · have hr2 : c.row + 1 < lvl.length := by omega
      refine ⟨?_, hob, Or.inr (Or.inl ⟨hr2, rfl⟩)⟩
      rw [hwf.row_len hr2]
      show c.col < tc
      omega
    · refine ⟨?_, hob, Or.inr (Or.inr (Or.inl ⟨hg, rfl⟩))⟩
      rw [hwf.row_len hrow]
      show c.col - 1 < tc
      omega
    · refine ⟨?_, hob, Or.inr (Or.inr (Or.inr ⟨by omega, rfl⟩))⟩
      rw [hwf.row_len hrow]
      show c.col + 1 < tc
      omega
  · rintro ⟨hcn, hob, hcase⟩
    rcases hcase with ⟨hg, rfl⟩ | ⟨hg, rfl⟩ | ⟨hg, rfl⟩ | ⟨hg, rfl⟩
    · exact ⟨hob, Or.inl ⟨hg, rfl⟩⟩
    · exact ⟨hob, Or.inr (Or.inl ⟨by omega, rfl⟩)⟩
    · exact ⟨hob, Or.inr (Or.inr (Or.inl ⟨hg, rfl⟩))⟩
    · exact ⟨hob, Or.inr (Or.inr (Or.inr ⟨by omega, rfl⟩))⟩

/-- A neighbour of an in-bounds cell is an in-bounds cell. -/
theorem mem_cells_of_mem_update {lvl : Level} {tr tc : Nat} {s g : Coord}
    (hwf : Wf lvl tr tc s g) {c : Coord} (hc : c ∈ cells lvl) {n : Coord}
    (hn : n ∈ update_neighbors lvl tr tc c) : n ∈ cells lvl := by
  have hgn := (mem_update_iff_grid hwf hc).mp hn
  obtain ⟨hcn, _, _⟩ := mem_gridNeighbors_iff.mp hgn
  refine mem_cells.mpr ⟨?_, hcn⟩
  by_contra hcon
  push_neg at hcon
  rw [List.getD_eq_default] at hcn
  · cases hcn
  · exact hcon

/-- Neighbours are never obstacles. -/
theorem not_obstacle_of_mem_update {lvl : Level} {tr tc : Nat} {s g : Coord}
    (hwf : Wf lvl tr tc s g) {c : Coord} (hc : c ∈ cells lvl) {n : Coord}
    (hn : n ∈ update_neighbors lvl tr tc c) : typeAt lvl n ≠ NodeType.OBSTACLE :=
  ((mem_update_neighbors_iff hwf hc).mp hn).1

/-- Neighbours are 4-adjacent: their Manhattan distance is exactly 1. -/
theorem adjacent_of_mem_update {lvl : Level} {tr tc : Nat} {s g : Coord}
    (hwf : Wf lvl tr tc s g) {c : Coord} (hc : c ∈ cells lvl) {n : Coord}
    (hn : n ∈ update_neighbors lvl tr tc c) : h n c = 1 := by
  obtain ⟨_, hcase⟩ := (mem_update_neighbors_iff hwf hc).mp hn
  rcases hcase with ⟨hg, rfl⟩ | ⟨hg, rfl⟩ | ⟨hg, rfl⟩ | ⟨hg, rfl⟩ <;>
    simp [h] <;> omega

/-- The Manhattan heuristic is symmetric. -/
theorem h_comm (a b : Coord) : h a b = h b a := by
  simp [h]
  omega

/-! ### Reachability lemmas -/

theorem mem_expandSet {lvl : Level} {s : List Coord} {x : Coord} :
    x ∈ expandSet lvl s ↔ x ∈ s ∨ ∃ y ∈ s, x ∈ gridNeighbors lvl y := by
  unfold expandSet
  rw [List.mem_dedup, List.mem_append, List.mem_flatMap]

theorem reachable_refl (lvl : Level) (s : Coord) : Reachable lvl s s :=
  ⟨0, by simp [reachN]⟩

theorem reachable_step {lvl : Level} {s c n : Coord} (hc : Reachable lvl s c)
    (hn : n ∈ gridNeighbors lvl c) : Reachable lvl s n := by
  obtain ⟨k, hk⟩ := hc
  exact ⟨k + 1, mem_expandSet.mpr (Or.inr ⟨c, hk, hn⟩)⟩

theorem reach_subset_of_closed {lvl : Level} {src : Coord} (P : Coord → Prop)
    (hcl : ∀ x, P x → ∀ y ∈ gridNeighbors lvl x, P y) (hsrc : P src) :
    ∀ k, ∀ c ∈ reachN lvl src k, P c := by
  intro k
  induction k with
  | zero =>
    intro c hc
    rw [reachN] at hc
    rcases List.mem_singleton.mp hc with rfl
    exact hsrc
  | succ k ih =>
    intro c hc
    rw [reachN] at hc
    rcases mem_expandSet.mp hc with hc2 | ⟨y, hy, hyn⟩
    · exact ih c hc2
    · exact hcl y (ih y hy) c hyn

/-- A decidable certificate of unreachability: a neighbour-closed radius-`K`
ball around the source that misses the target. -/
theorem not_reachable_of_closed_ball {lvl : Level} {src tgt : Coord} (K : Nat)
    (hcl : ∀ x ∈ reachN lvl src K, ∀ y ∈ gridNeighbors lvl x, y ∈ reachN lvl src K)
    (htgt : tgt ∉ reachN lvl src K) : ¬ Reachable lvl src tgt := by
  have hsrc : src ∈ reachN lvl src K := by
    clear htgt hcl
    induction K with
    | zero => simp [reachN]
    | succ k ih =>
      rw [reachN]
      exact mem_expandSet.mpr (Or.inl ih)
  rintro ⟨k, hk⟩
  exact htgt (reach_subset_of_closed (fun c => c ∈ reachN lvl src K) hcl hsrc k tgt hk)

/-! ### Counting and sum helpers for the termination measure -/

theorem countP_congr_mem {l : List Coord} (p q : Coord → Bool)
    (hpq : ∀ c ∈ l, p c = q c) : l.countP p = l.countP q := by
  induction l with
  | nil => rfl
  | cons x rest ih =>
    rw [List.countP_cons, List.countP_cons, hpq x (List.mem_cons_self _ _),
      ih (fun c hc => hpq c (List.mem_cons_of_mem _ hc))]

theorem countP_update_true {l : List Coord} (hnd : l.Nodup) {n : Coord}
    (hn : n ∈ l) (p q : Coord → Bool) (hq : ∀ c, c ≠ n → q c = p c)
    (hpn : p n = false) (hqn : q n = true) :
    l.countP q = l.countP p + 1 := by
  induction l with
  | nil => cases hn
  | cons x rest ih =>
    rw [List.countP_cons, List.countP_cons]
    rcases List.mem_cons.mp hn with rfl | hn2
    · have hrest : rest.countP q = rest.countP p := by
        apply countP_congr_mem
        intro c hc
        have hcn : c ≠ n := fun hcx => (List.nodup_cons.mp hnd).1 (hcx ▸ hc)
        exact hq c hcn
      rw [hrest, hpn, hqn]
      simp
    · have hxn : x ≠ n := fun hxe => (List.nodup_cons.mp hnd).1 (hxe ▸ hn2)
      rw [hq x hxn, ih (List.nodup_cons.mp hnd).2 hn2]
      omega

theorem sum_map_congr_mem {l : List Coord} (f f2 : Coord → Nat)
    (hff : ∀ c ∈ l, f c = f2 c) : (l.map f).sum = (l.map f2).sum := by
  induction l with
  | nil => rfl
  | cons x rest ih =>
    rw [List.map_cons, List.map_cons, List.sum_cons, List.sum_cons,
      hff x (List.mem_cons_self _ _), ih (fun c hc => hff c (List.mem_cons_of_mem _ hc))]

theorem sum_map_lt_update {l : List Coord} (hnd : l.Nodup) {n : Coord}
    (hn : n ∈ l) (f f2 : Coord → Nat) (hf : ∀ c, c ≠ n → f2 c = f c)
    (hlt : f2 n < f n) : (l.map f2).sum + (f n - f2 n) = (l.map f).sum := by
  induction l with
  | nil => cases hn
  | cons x rest ih =>
    rw [List.map_cons, List.map_cons, List.sum_cons, List.sum_cons]
    rcases List.mem_cons.mp hn with rfl | hn2
    · have hrest : (rest.map f2).sum = (rest.map f).sum := by
        apply sum_map_congr_mem
        intro c hc
        have hcn : c ≠ n := fun hcx => (List.nodup_cons.mp hnd).1 (hcx ▸ hc)
        exact hf c hcn
      rw [hrest]
      omega
    · have hxn : x ≠ n := fun hxe => (List.nodup_cons.mp hnd).1 (hxe ▸ hn2)
      rw [hf x hxn]
      have := ih (List.nodup_cons.mp hnd).2 hn2
      omega

/-! ### The reconstruction walk as a pure chain -/

/-- The pure predecessor walk: the sequence of nodes `reconstruct_path`
visits, without the marking side effects. -/
def chainWalk (cf : Coord → Option Coord) : Nat → Coord → List Coord
  | 0, c => [c]
  | fuel + 1, c =>
    match cf c with
    | none => [c]
    | some p => c :: chainWalk cf fuel p

theorem reconstruct_path_fst (fuel : Nat) :
    ∀ (st : SState) (c : Coord),
      (reconstruct_path fuel st c).1 = chainWalk st.cameFrom fuel c := by
  induction fuel with
  | zero => intro st c; rfl
  | succ fuel ih =>
    intro st c
    rw [reconstruct_path, chainWalk]
    rcases hcf : st.cameFrom c with _ | p
    · rfl
    · dsimp only
      rw [ih]
      congr 1
      split <;> rfl

theorem chainWalk_ne_nil (cf : Coord → Option Coord) (fuel : Nat) (c : Coord) :
    chainWalk cf fuel c ≠ [] := by
  cases fuel with
  | zero => simp [chainWalk]
  | succ fuel =>
    rw [chainWalk]
    rcases cf c with _ | p <;> simp

theorem chainWalk_head (cf : Coord → Option Coord) (fuel : Nat) (c : Coord) :
    (chainWalk cf fuel c).head? = some c := by
  cases fuel with
  | zero => rfl
  | succ fuel =>
    rw [chainWalk]
    rcases cf c with _ | p <;> rfl

/-! ### The search-loop invariant -/

/-- Weight of a score for the termination measure: `none` (infinity) weighs
`N + 1`, a finite score weighs its value (always `≤ N − 1`). -/
def gWeight (N : Nat) : Option Nat → Nat
  | none => N + 1
  | some v => v

/-- Termination measure: queue length plus total score weight.  Every loop
iteration strictly decreases it. -/
def searchMeasure (lvl : Level) (st : SState) : Nat :=
  st.openNodes.length
    + ((cells lvl).map (fun c => gWeight (cellCount lvl) (st.gScore c))).sum

/-- The invariant holding at the top of every loop iteration. -/
structure Inv (lvl : Level) (tr tc : Nat) (start : Coord) (st : SState) : Prop where
  hashQueue : ∀ c, st.openHash c = true ↔ ∃ e ∈ st.openNodes, e.2.2 = c
  queueNodup : (st.openNodes.map (fun e => e.2.2)).Nodup
  queueDiscovered : ∀ e ∈ st.openNodes, st.gScore e.2.2 ≠ none
  queueCells : ∀ e ∈ st.openNodes, e.2.2 ∈ cells lvl
  gStart : st.gScore start = some 0
  cameFromStart : st.cameFrom start = none
  cameFromDec : ∀ c p, st.cameFrom c = some p →
    ∃ a b, st.gScore c = some a ∧ st.gScore p = some b ∧ b < a
  cameFromEdge : ∀ c p, st.cameFrom c = some p → c ∈ update_neighbors lvl tr tc p
  discoveredCame : ∀ c, c ≠ start → st.gScore c ≠ none → st.cameFrom c ≠ none
  discoveredCells : ∀ c, st.gScore c ≠ none → c ∈ cells lvl
  discoveredReach : ∀ c, st.gScore c ≠ none → Reachable lvl start c
  discoveredNotObstacle : ∀ c, st.gScore c ≠ none → typeAt lvl c ≠ NodeType.OBSTACLE
  neighborClosed : ∀ c, st.gScore c ≠ none →
    st.openHash c = true ∨ ∀ n ∈ update_neighbors lvl tr tc c, st.gScore n ≠ none
  maxG : ∀ c v, st.gScore c = some v →
    v + 1 ≤ (cells lvl).countP (fun d => (st.gScore d).isSome)
  typeUndiscovered : ∀ c, st.gScore c = none → st.types c = typeAt lvl c
  typeDiscOpen : ∀ c, c ≠ start → st.gScore c ≠ none → st.openHash c = true →
    st.types c = NodeType.OPEN
  typeDiscClosed : ∀ c, c ≠ start → st.gScore c ≠ none → st.openHash c = false →
    st.types c = NodeType.CLOSED
  typeStart : st.types start = typeAt lvl start

/-- The invariant holding in the middle of an iteration, after the pop of
`cur` but before `cur` is closed: the clauses tied to closing are suspended
for `cur`. -/
structure MidInv (lvl : Level) (tr tc : Nat) (start cur : Coord) (st : SState) : Prop where
  hashQueue : ∀ c, st.openHash c = true ↔ ∃ e ∈ st.openNodes, e.2.2 = c
  queueNodup : (st.openNodes.map (fun e => e.2.2)).Nodup
  queueDiscovered : ∀ e ∈ st.openNodes, st.gScore e.2.2 ≠ none
  queueCells : ∀ e ∈ st.openNodes, e.2.2 ∈ cells lvl
  gStart : st.gScore start = some 0
  cameFromStart : st.cameFrom start = none
  cameFromDec : ∀ c p, st.cameFrom c = some p →
    ∃ a b, st.gScore c = some a ∧ st.gScore p = some b ∧ b < a
  cameFromEdge : ∀ c p, st.cameFrom c = some p → c ∈ update_neighbors lvl tr tc p
  discoveredCame : ∀ c, c ≠ start → st.gScore c ≠ none → st.cameFrom c ≠ none
  discoveredCells : ∀ c, st.gScore c ≠ none → c ∈ cells lvl
  discoveredReach : ∀ c, st.gScore c ≠ none → Reachable lvl start c
  discoveredNotObstacle : ∀ c, st.gScore c ≠ none → typeAt lvl c ≠ NodeType.OBSTACLE
  neighborClosed : ∀ c, c ≠ cur → st.gScore c ≠ none →
    st.openHash c = true ∨ ∀ n ∈ update_neighbors lvl tr tc c, st.gScore n ≠ none
  maxG : ∀ c v, st.gScore c = some v →
    v + 1 ≤ (cells lvl).countP (fun d => (st.gScore d).isSome)
  typeUndiscovered : ∀ c, st.gScore c = none → st.types c = typeAt lvl c
  typeDiscOpen : ∀ c, c ≠ start → c ≠ cur → st.gScore c ≠ none → st.openHash c = true →
    st.types c = NodeType.OPEN
  typeDiscClosed : ∀ c, c ≠ start → c ≠ cur → st.gScore c ≠ none → st.openHash c = false →
    st.types c = NodeType.CLOSED
  typeStart : st.types start = typeAt lvl start

theorem removeEntry_spec {l : List Entry} {e : Entry}
    (hnd : (l.map (fun x => x.2.2)).Nodup) (he : e ∈ l) :
    (∀ x, x ∈ removeEntry e l ↔ (x ∈ l ∧ x.2.2 ≠ e.2.2))
    ∧ ((removeEntry e l).map (fun x => x.2.2)).Nodup
    ∧ (removeEntry e l).length + 1 = l.length := by
  induction l with
  | nil => cases he
  | cons y rest ih =>
    rw [List.map_cons, List.nodup_cons] at hnd
    rcases List.mem_cons.mp he with rfl | he2
    · rw [removeEntry, if_pos rfl]
      refine ⟨?_, hnd.2, by simp⟩
      intro x
      constructor
      · intro hx
        refine ⟨List.mem_cons_of_mem _ hx, ?_⟩
        intro hc
        exact hnd.1 (hc ▸ List.mem_map_of_mem (fun x => x.2.2) hx)
      · intro ⟨hx, hne⟩
        rcases List.mem_cons.mp hx with rfl | hx2
        · exact absurd rfl hne
        · exact hx2
    · have hyne : y ≠ e := by
        intro hc
        exact hnd.1 (hc ▸ List.mem_map_of_mem (fun x => x.2.2) he2)
      rw [removeEntry, if_neg hyne]
      obtain ⟨hiff, hnd2, hlen⟩ := ih hnd.2 he2
      refine ⟨?_, ?_, by simp [← hlen]⟩
      · intro x
        rw [List.mem_cons, hiff x, List.mem_cons]
        constructor
        · rintro (rfl | ⟨hx, hne⟩)
          · refine ⟨Or.inl rfl, ?_⟩
            intro hc
            exact hnd.1 (hc ▸ List.mem_map_of_mem (fun x => x.2.2) he2)
          · exact ⟨Or.inr hx, hne⟩
        · rintro ⟨rfl | hx, hne⟩
          · exact Or.inl rfl
          · exact Or.inr ⟨hx, hne⟩
      · rw [List.map_cons, List.nodup_cons]
        refine ⟨?_, hnd2⟩
        intro hc
        obtain ⟨x, hx, hxy⟩ := List.mem_map.mp hc
        exact hnd.1 (hxy ▸ List.mem_map_of_mem (fun x => x.2.2) ((hiff x).mp hx).1)

theorem h_self (a : Coord) : h a a = 0 := by
  simp [h]

/-- Explicit case analysis of one relaxation step, as projection equations. -/
theorem relaxNeighbor_spec (g0 cur n : Coord) (st : SState) (gc : Nat)
    (hgc : st.gScore cur = some gc) :
    (relaxNeighbor g0 cur st n = st ∧ ∃ gn, st.gScore n = some gn ∧ ¬ gc + 1 < gn)
    ∨ ((∀ gn, st.gScore n = some gn → gc + 1 < gn)
        ∧ (relaxNeighbor g0 cur st n).cameFrom
            = (fun c => if c = n then some cur else st.cameFrom c)
        ∧ (relaxNeighbor g0 cur st n).gScore
            = (fun c => if c = n then some (gc + 1) else st.gScore c)
        ∧ (relaxNeighbor g0 cur st n).fScore
            = (fun c => if c = n then some (gc + 1 + h n g0) else st.fScore c)
        ∧ ((st.openHash n = true
              ∧ (relaxNeighbor g0 cur st n).openNodes = st.openNodes
              ∧ (relaxNeighbor g0 cur st n).openHash = st.openHash
              ∧ (relaxNeighbor g0 cur st n).types = st.types
              ∧ (relaxNeighbor g0 cur st n).count = st.count)
          ∨ (st.openHash n = false
              ∧ (relaxNeighbor g0 cur st n).openNodes
                  = st.openNodes ++ [(gc + 1 + h n g0, st.count + 1, n)]
              ∧ (relaxNeighbor g0 cur st n).openHash
                  = (fun c => if c = n then true else st.openHash c)
              ∧ (relaxNeighbor g0 cur st n).types
                  = (fun c => if c = n then NodeType.OPEN else st.types c)
              ∧ (relaxNeighbor g0 cur st n).count = st.count + 1))) := by
  have hrel : relaxNeighbor g0 cur st n = (
      let cand := gc + 1
      let better :=
        match st.gScore n with
        | none => true
        | some gn => decide (cand < gn)
      if better then
        let fn := cand + h n g0
        let st1 : SState :=
          { st with
            cameFrom := fun c => if c = n then some cur else st.cameFrom c
            gScore := fun c => if c = n then some cand else st.gScore c
            fScore := fun c => if c = n then some fn else st.fScore c }
        if st1.openHash n then st1
        else
          { st1 with
            count := st1.count + 1
            openNodes := st1.openNodes ++ [(fn, st1.count + 1, n)]
            openHash := fun c => if c = n then true else st1.openHash c
            types := fun c => if c = n then NodeType.OPEN else st1.types c
            trace := st1.trace ++ [Obs.openedCell n] }
      else st) := by
    unfold relaxNeighbor
    rw [hgc]
  rcases hgn : st.gScore n with _ | gn
  · right
    rw [hgn] at hrel
    dsimp only at hrel
    rw [if_pos rfl] at hrel
    refine ⟨fun gn2 hgn2 => Option.noConfusion hgn2, ?_⟩
    rcases hh : st.openHash n with _ | _
    · rw [hh, if_neg Bool.false_ne_true] at hrel
      rw [hrel]
      exact ⟨rfl, rfl, rfl, Or.inr ⟨rfl, rfl, rfl, rfl, rfl⟩⟩
    · rw [hh, if_pos rfl] at hrel
      rw [hrel]
      exact ⟨rfl, rfl, rfl, Or.inl ⟨rfl, rfl, rfl, rfl, rfl⟩⟩
  · by_cases hlt : gc + 1 < gn
    · right
      rw [hgn] at hrel
      dsimp only at hrel
      rw [if_pos (by rw [decide_eq_true hlt])] at hrel
      refine ⟨fun gn2 hgn2 => by injection hgn2 with h2; exact h2 ▸ hlt, ?_⟩
      rcases hh : st.openHash n with _ | _
      · rw [hh, if_neg Bool.false_ne_true] at hrel
        rw [hrel]
        exact ⟨rfl, rfl, rfl, Or.inr ⟨rfl, rfl, rfl, rfl, rfl⟩⟩
      · rw [hh, if_pos rfl] at hrel
        rw [hrel]
        exact ⟨rfl, rfl, rfl, Or.inl ⟨rfl, rfl, rfl, rfl, rfl⟩⟩
    · left
      rw [hgn] at hrel
      dsimp only at hrel
      rw [if_neg (by simpa using hlt)] at hrel
      exact ⟨hrel, gn, rfl, hlt⟩

/-- Core preservation argument for one relaxation that actually updates the
maps, stated over pointwise characterizations of the successor state. -/
theorem relax_mid_core {lvl : Level} {tr tc : Nat} {s gl : Coord}
    (hwf : Wf lvl tr tc s gl) (g0 : Coord) {cur n : Coord} {st st2 : SState}
    {gcur : Nat}
    (hmid : MidInv lvl tr tc s cur st)
    (hcells : cur ∈ cells lvl)
    (hgc : st.gScore cur = some gcur)
    (hhash : st.openHash cur = false)
    (hn : n ∈ update_neighbors lvl tr tc cur)
    (himp : ∀ gn, st.gScore n = some gn → gcur + 1 < gn)
    (hgs : ∀ c, st2.gScore c = if c = n then some (gcur + 1) else st.gScore c)
    (hcf : ∀ c, st2.cameFrom c = if c = n then some cur else st.cameFrom c)
    (hhash2 : ∀ c, st2.openHash c = if c = n then true else st.openHash c)
    (htypes : ∀ c, st2.types c = if c = n then NodeType.OPEN else st.types c)
    (hq : (st.openHash n = true ∧ st2.openNodes = st.openNodes)
        ∨ (st.openHash n = false
            ∧ st2.openNodes = st.openNodes ++ [(gcur + 1 + h n g0, st.count + 1, n)])) :
    MidInv lvl tr tc s cur st2
    ∧ st2.gScore cur = some gcur
    ∧ st2.openHash cur = false
    ∧ st2.gScore n ≠ none
    ∧ (∀ m, st.gScore m ≠ none → st2.gScore m ≠ none)
    ∧ searchMeasure lvl st2 ≤ searchMeasure lvl st := by
  have hncur : n ≠ cur := by
    intro hcon
    have hadj := adjacent_of_mem_update hwf hcells hn
    rw [hcon, h_self] at hadj
    cases hadj
  have hcurn : cur ≠ n := Ne.symm hncur
  have hncells : n ∈ cells lvl := mem_cells_of_mem_update hwf hcells hn
  have hnstart : n ≠ s := by
    intro hcon
    have h0 := himp 0 (by rw [hcon]; exact hmid.gStart)
    omega
  have hsn : s ≠ n := Ne.symm hnstart
  have hgsn : st2.gScore n = some (gcur + 1) := by
    rw [hgs]
    simp
  have hgso : ∀ m, m ≠ n → st2.gScore m = st.gScore m := by
    intro m hm
    rw [hgs, if_neg hm]
  have hmono : ∀ m, st.gScore m ≠ none → st2.gScore m ≠ none := by
    intro m hm
    by_cases hmn : m = n
    · subst hmn
      rw [hgsn]
      exact fun hc => Option.noConfusion hc
    · rw [hgso m hmn]
      exact hm
  have hcfn : st2.cameFrom n = some cur := by
    rw [hcf]
    simp
  have hcfo : ∀ m, m ≠ n → st2.cameFrom m = st.cameFrom m := by
    intro m hm
    rw [hcf, if_neg hm]
  have hhn : st2.openHash n = true := by
    rw [hhash2]
    simp
  have hho : ∀ m, m ≠ n → st2.openHash m = st.openHash m := by
    intro m hm
    rw [hhash2, if_neg hm]
  have htn : st2.types n = NodeType.OPEN := by
    rw [htypes]
    simp
  have hto : ∀ m, m ≠ n → st2.types m = st.types m := by
    intro m hm
    rw [htypes, if_neg hm]
  -- counting facts
  have hcntN : (cells lvl).countP (fun d => (st.gScore d).isSome) ≤ cellCount lvl := by
    rw [← cells_length lvl]
    exact List.countP_le_length _
  have hgcurBound : gcur + 1 ≤ (cells lvl).countP (fun d => (st.gScore d).isSome) :=
    hmid.maxG cur gcur hgc
  have hcnt : ((cells lvl).countP (fun d => (st2.gScore d).isSome)
        = (cells lvl).countP (fun d => (st.gScore d).isSome)
        ∧ ∃ gn, st.gScore n = some gn)
      ∨ ((cells lvl).countP (fun d => (st2.gScore d).isSome)
        = (cells lvl).countP (fun d => (st.gScore d).isSome) + 1
        ∧ st.gScore n = none) := by
    rcases hgnold : st.gScore n with _ | gn
    · right
      refine ⟨?_, rfl⟩
      refine countP_update_true (cells_nodup lvl) hncells _ _ ?_ ?_ ?_
      · intro c hc
        rw [hgso c hc]
      · rw [hgnold]
        rfl
      · rw [hgsn]
        rfl
    · left
      refine ⟨?_, gn, rfl⟩
      apply countP_congr_mem
      intro c _
      by_cases hcn : c = n
      · subst hcn
        rw [hgsn, hgnold]
        rfl
      · rw [hgso c hcn]
  have hcntGe : (cells lvl).countP (fun d => (st.gScore d).isSome)
      ≤ (cells lvl).countP (fun d => (st2.gScore d).isSome) := by
    rcases hcnt with ⟨hc, _⟩ | ⟨hc, _⟩ <;> omega
  -- measure facts
  have hwlt : gWeight (cellCount lvl) (st2.gScore n) < gWeight (cellCount lvl) (st.gScore n) := by
    rw [hgsn]
    rcases hgnold : st.gScore n with _ | gn
    · show gcur + 1 < cellCount lvl + 1
      omega
    · show gcur + 1 < gn
      exact himp gn hgnold
  have hsum := sum_map_lt_update (cells_nodup lvl) hncells
    (fun c => gWeight (cellCount lvl) (st.gScore c))
    (fun c => gWeight (cellCount lvl) (st2.gScore c))
    (fun c hc => by
      show gWeight (cellCount lvl) (st2.gScore c) = gWeight (cellCount lvl) (st.gScore c)
      rw [hgso c hc]) hwlt
  dsimp only at hsum
  refine ⟨⟨?_, ?_, ?_, ?_, ?_, ?_, ?_, ?_, ?_, ?_, ?_, ?_, ?_, ?_, ?_, ?_, ?_, ?_⟩,
    by rw [hgso cur hcurn]; exact hgc,
    by rw [hho cur hcurn]; exact hhash,
    by rw [hgsn]; exact fun hc => Option.noConfusion hc,
    hmono, ?_⟩
  -- hashQueue
  · intro c
    rcases hq with ⟨hh, hqe⟩ | ⟨hh, hqe⟩
    · rw [hhash2 c, hqe]
      by_cases hcn : c = n
      · subst hcn
        rw [if_pos rfl]
        simp only [true_iff]
        exact (hmid.hashQueue c).mp hh
      · rw [if_neg hcn]
        exact hmid.hashQueue c
    · rw [hhash2 c, hqe]
      by_cases hcn : c = n
      · subst hcn
        rw [if_pos rfl]
        simp only [true_iff]
        exact ⟨(gcur + 1 + h c g0, st.count + 1, c), by simp⟩
      · rw [if_neg hcn]
        rw [hmid.hashQueue c]
        constructor
        · rintro ⟨e, he, rfl⟩
          exact ⟨e, by simp [he], rfl⟩
        · rintro ⟨e, he, rfl⟩
          rcases List.mem_append.mp he with he2 | he2
          · exact ⟨e, he2, rfl⟩
          · rcases List.mem_singleton.mp he2 with rfl
            exact absurd rfl hcn
  -- queueNodup
  · rcases hq with ⟨hh, hqe⟩ | ⟨hh, hqe⟩
    · rw [hqe]
      exact hmid.queueNodup
    · rw [hqe, List.map_append]
      have hnotin : n ∉ st.openNodes.map (fun x => x.2.2) := by
        intro hc
        obtain ⟨e, he, hec⟩ := List.mem_map.mp hc
        have := (hmid.hashQueue n).mpr ⟨e, he, hec⟩
        rw [hh] at this
        cases this
      simp only [List.map_cons, List.map_nil]
      rw [List.nodup_append]
      refine ⟨hmid.queueNodup, List.nodup_singleton _, ?_⟩
      intro a ha hb
      rcases List.mem_singleton.mp hb with rfl
      exact hnotin ha
  -- queueDiscovered
  · intro e he
    rcases hq with ⟨hh, hqe⟩ | ⟨hh, hqe⟩
    · rw [hqe] at he
      exact hmono e.2.2 (hmid.queueDiscovered e he)
    · rw [hqe] at he
      rcases List.mem_append.mp he with he2 | he2
      · exact hmono e.2.2 (hmid.queueDiscovered e he2)
      · rcases List.mem_singleton.mp he2 with rfl
        rw [hgsn]
        exact fun hc => Option.noConfusion hc
  -- queueCells
  · intro e he
    rcases hq with ⟨hh, hqe⟩ | ⟨hh, hqe⟩
    · rw [hqe] at he
      exact hmid.queueCells e he
    · rw [hqe] at he
      rcases List.mem_append.mp he with he2 | he2
      · exact hmid.queueCells e he2
      · rcases List.mem_singleton.mp he2 with rfl
        exact hncells
  -- gStart
  · rw [hgso s hsn]
    exact hmid.gStart
  -- cameFromStart
  · rw [hcfo s hsn]
    exact hmid.cameFromStart
  -- cameFromDec
  · intro c p hcp
    by_cases hcn : c = n
    · subst hcn
      rw [hcfn] at hcp
      injection hcp with hcp2
      subst hcp2
      exact ⟨gcur + 1, gcur, hgsn, by rw [hgso cur hcurn]; exact hgc, by omega⟩
    · rw [hcfo c hcn] at hcp
      obtain ⟨a, b, hga, hgp, hba⟩ := hmid.cameFromDec c p hcp
      by_cases hpn : p = n
      · subst hpn
        have hlt := himp b hgp
        exact ⟨a, gcur + 1, by rw [hgso c hcn]; exact hga, hgsn, by omega⟩
      · exact ⟨a, b, by rw [hgso c hcn]; exact hga, by rw [hgso p hpn]; exact hgp, hba⟩
  -- cameFromEdge
  · intro c p hcp
    by_cases hcn : c = n
    · subst hcn
      rw [hcfn] at hcp
      injection hcp with hcp2
      subst hcp2
      exact hn
    · rw [hcfo c hcn] at hcp
      exact hmid.cameFromEdge c p hcp
  -- discoveredCame
  · intro c hcs hg2
    by_cases hcn : c = n
    · subst hcn
      rw [hcfn]
      exact fun hc => Option.noConfusion hc
    · rw [hcfo c hcn]
      rw [hgso c hcn] at hg2
      exact hmid.discoveredCame c hcs hg2
  -- discoveredCells
  · intro c hg2
    by_cases hcn : c = n
    · subst hcn
      exact hncells
    · rw [hgso c hcn] at hg2
      exact hmid.discoveredCells c hg2
  -- discoveredReach
  · intro c hg2
    by_cases hcn : c = n
    · subst hcn
      exact reachable_step
        (hmid.discoveredReach cur (by rw [hgc]; exact fun hc => Option.noConfusion hc))
        ((mem_update_iff_grid hwf hcells).mp hn)
    · rw [hgso c hcn] at hg2
      exact hmid.discoveredReach c hg2
  -- discoveredNotObstacle
  · intro c hg2
    by_cases hcn : c = n
    · subst hcn
      exact not_obstacle_of_mem_update hwf hcells hn
    · rw [hgso c hcn] at hg2
      exact hmid.discoveredNotObstacle c hg2
  -- neighborClosed
  · intro c hccur hg2
    by_cases hcn : c = n
    · subst hcn
      left
      exact hhn
    · rw [hgso c hcn] at hg2
      rcases hmid.neighborClosed c hccur hg2 with hcl | hcl
      · left
        rw [hho c hcn]
        exact hcl
      · right
        intro m hm
        exact hmono m (hcl m hm)
  -- maxG
  · intro c v hgv
    by_cases hcn : c = n
    · subst hcn
      rw [hgsn] at hgv
      injection hgv with hgv2
      subst hgv2
      rcases hcnt with ⟨hc, gn, hgn⟩ | ⟨hc, hgn⟩
      · have := hmid.maxG c gn hgn
        have := himp gn hgn
        omega
      · omega
    · rw [hgso c hcn] at hgv
      have := hmid.maxG c v hgv
      omega
  -- typeUndiscovered
  · intro c hg2
    have hcn : c ≠ n := by
      intro hcon
      rw [hcon, hgsn] at hg2
      cases hg2
    rw [hto c hcn]
    rw [hgso c hcn] at hg2
    exact hmid.typeUndiscovered c hg2
  -- typeDiscOpen
  · intro c hcs hccur hg2 hh2
    by_cases hcn : c = n
    · subst hcn
      exact htn
    · rw [hto c hcn]
      rw [hgso c hcn] at hg2
      rw [hho c hcn] at hh2
      exact hmid.typeDiscOpen c hcs hccur hg2 hh2
  -- typeDiscClosed
  · intro c hcs hccur hg2 hh2
    have hcn : c ≠ n := by
      intro hcon
      rw [hcon, hhn] at hh2
      cases hh2
    rw [hto c hcn]
    rw [hgso c hcn] at hg2
    rw [hho c hcn] at hh2
    exact hmid.typeDiscClosed c hcs hccur hg2 hh2
  -- typeStart
  · rw [hto s hsn]
    exact hmid.typeStart
  -- measure
  · unfold searchMeasure
    rcases hq with ⟨hh, hqe⟩ | ⟨hh, hqe⟩
    · rw [hqe]
      omega
    · rw [hqe, List.length_append]
      simp only [List.length_cons, List.length_nil]
      omega

/-- One relaxation step preserves the mid-iteration invariant. -/
theorem relax_preserves {lvl : Level} {tr tc : Nat} {s gl : Coord}
    (hwf : Wf lvl tr tc s gl) (g0 : Coord) {cur n : Coord} {st : SState}
    {gcur : Nat}
    (hmid : MidInv lvl tr tc s cur st)
    (hcells : cur ∈ cells lvl)
    (hgc : st.gScore cur = some gcur)
    (hhash : st.openHash cur = false)
    (hn : n ∈ update_neighbors lvl tr tc cur) :
    MidInv lvl tr tc s cur (relaxNeighbor g0 cur st n)
    ∧ (relaxNeighbor g0 cur st n).gScore cur = some gcur
    ∧ (relaxNeighbor g0 cur st n).openHash cur = false
    ∧ (relaxNeighbor g0 cur st n).gScore n ≠ none
    ∧ (∀ m, st.gScore m ≠ none → (relaxNeighbor g0 cur st n).gScore m ≠ none)
    ∧ searchMeasure lvl (relaxNeighbor g0 cur st n) ≤ searchMeasure lvl st := by
  rcases relaxNeighbor_spec g0 cur n st gcur hgc with ⟨heq, gn, hgn, _⟩ |
    ⟨himp, hcf, hgs, _, hcase⟩
  · rw [heq]
    exact ⟨hmid, hgc, hhash, by rw [hgn]; exact fun hc => Option.noConfusion hc,
      fun m hm => hm, Nat.le_refl _⟩
  · have hgs2 : ∀ c, (relaxNeighbor g0 cur st n).gScore c
        = if c = n then some (gcur + 1) else st.gScore c := by
      intro c
      rw [hgs]
    have hcf2 : ∀ c, (relaxNeighbor g0 cur st n).cameFrom c
        = if c = n then some cur else st.cameFrom c := by
      intro c
      rw [hcf]
    rcases hcase with ⟨hh, hqe, hhe, hte, _⟩ | ⟨hh, hqe, hhe, hte, _⟩
    · have hncur : n ≠ cur := by
        intro hcon
        rw [hcon, hhash] at hh
        cases hh
      have hnstart : n ≠ s := by
        intro hcon
        have h0 := himp 0 (by rw [hcon]; exact hmid.gStart)
        omega
      have hdisc : st.gScore n ≠ none := by
        obtain ⟨e, he, hec⟩ := (hmid.hashQueue n).mp hh
        rw [← hec]
        exact hmid.queueDiscovered e he
      have hhash2 : ∀ c, (relaxNeighbor g0 cur st n).openHash c
          = if c = n then true else st.openHash c := by
        intro c
        rw [hhe]
        by_cases hcn : c = n
        · subst hcn
          rw [if_pos rfl]
          exact hh
        · rw [if_neg hcn]
      have htypes : ∀ c, (relaxNeighbor g0 cur st n).types c
          = if c = n then NodeType.OPEN else st.types c := by
        intro c
        rw [hte]
        by_cases hcn : c = n
        · subst hcn
          rw [if_pos rfl]
          exact hmid.typeDiscOpen c hnstart hncur hdisc hh
        · rw [if_neg hcn]
      exact relax_mid_core hwf g0 hmid hcells hgc hhash hn himp hgs2 hcf2 hhash2
        htypes (Or.inl ⟨hh, hqe⟩)
    · have hhash2 : ∀ c, (relaxNeighbor g0 cur st n).openHash c
          = if c = n then true else st.openHash c := by
        intro c
        rw [hhe]
      have htypes : ∀ c, (relaxNeighbor g0 cur st n).types c
          = if c = n then NodeType.OPEN else st.types c := by
        intro c
        rw [hte]
      exact relax_mid_core hwf g0 hmid hcells hgc hhash hn himp hgs2 hcf2 hhash2
        htypes (Or.inr ⟨hh, hqe⟩)

/-- Folding relaxation over a list of neighbours preserves the mid-iteration
invariant, keeps the popped node's score and absence from the hash, makes
every processed neighbour discovered, and does not increase the measure. -/
theorem fold_relax_preserves {lvl : Level} {tr tc : Nat} {s gl : Coord}
    (hwf : Wf lvl tr tc s gl) (g0 : Coord) {cur : Coord} {gcur : Nat} :
    ∀ (ns : List Coord) (st : SState),
      MidInv lvl tr tc s cur st →
      cur ∈ cells lvl →
      st.gScore cur = some gcur →
      st.openHash cur = false →
      (∀ n ∈ ns, n ∈ update_neighbors lvl tr tc cur) →
      MidInv lvl tr tc s cur (ns.foldl (relaxNeighbor g0 cur) st)
      ∧ (ns.foldl (relaxNeighbor g0 cur) st).gScore cur = some gcur
      ∧ (ns.foldl (relaxNeighbor g0 cur) st).openHash cur = false
      ∧ (∀ n ∈ ns, (ns.foldl (relaxNeighbor g0 cur) st).gScore n ≠ none)
      ∧ (∀ m, st.gScore m ≠ none → (ns.foldl (relaxNeighbor g0 cur) st).gScore m ≠ none)
      ∧ searchMeasure lvl (ns.foldl (relaxNeighbor g0 cur) st) ≤ searchMeasure lvl st := by
  intro ns
  induction ns with
  | nil =>
    intro st hmid hcells hgc hhash _
    exact ⟨hmid, hgc, hhash, (by intro n hn; cases hn), fun m hm => hm, Nat.le_refl _⟩
  | cons n0 rest ih =>
    intro st hmid hcells hgc hhash hns
    obtain ⟨hmid1, hgc1, hhash1, hdisc1, hmono1, hmu1⟩ :=
      relax_preserves hwf g0 hmid hcells hgc hhash (hns n0 (List.mem_cons_self _ _))
    obtain ⟨hmid2, hgc2, hhash2, hdisc2, hmono2, hmu2⟩ :=
      ih (relaxNeighbor g0 cur st n0) hmid1 hcells hgc1 hhash1
        (fun n hn => hns n (List.mem_cons_of_mem _ hn))
    rw [List.foldl_cons]
    refine ⟨hmid2, hgc2, hhash2, ?_, fun m hm => hmono2 m (hmono1 m hm),
      Nat.le_trans hmu2 hmu1⟩
    intro n hn
    rcases List.mem_cons.mp hn with rfl | hn2
    · exact hmono2 n hdisc1
    · exact hdisc2 n hn2

/-- Popping the minimum entry turns the loop invariant into the
mid-iteration invariant for the popped coordinate. -/
theorem pop_mid {lvl : Level} {tr tc : Nat} {s : Coord} {st : SState}
    {e : Entry} {rest : List Entry}
    (hinv : Inv lvl tr tc s st)
    (hpop : popMin st.openNodes = some (e, rest)) :
    MidInv lvl tr tc s e.2.2
      { st with openNodes := rest,
                openHash := fun c => if c = e.2.2 then false else st.openHash c }
    ∧ e.2.2 ∈ cells lvl
    ∧ st.gScore e.2.2 ≠ none
    ∧ rest.length + 1 = st.openNodes.length := by
  obtain ⟨hmem, hrest, _⟩ := popMin_spec hpop
  obtain ⟨hiff, hnd, hlen⟩ := removeEntry_spec hinv.queueNodup hmem
  subst hrest
  have hfalse : (fun c => if c = e.2.2 then false else st.openHash c) e.2.2
      = false := if_pos rfl
  refine ⟨?_, hinv.queueCells e hmem, hinv.queueDiscovered e hmem, hlen⟩
  refine
    { hashQueue := ?_
      queueNodup := hnd
      queueDiscovered := fun e2 he2 => hinv.queueDiscovered e2 ((hiff e2).mp he2).1
      queueCells := fun e2 he2 => hinv.queueCells e2 ((hiff e2).mp he2).1
      gStart := hinv.gStart
      cameFromStart := hinv.cameFromStart
      cameFromDec := hinv.cameFromDec
      cameFromEdge := hinv.cameFromEdge
      discoveredCame := hinv.discoveredCame
      discoveredCells := hinv.discoveredCells
      discoveredReach := hinv.discoveredReach
      discoveredNotObstacle := hinv.discoveredNotObstacle
      neighborClosed := ?_
      maxG := hinv.maxG
      typeUndiscovered := hinv.typeUndiscovered
      typeDiscOpen := ?_
      typeDiscClosed := ?_
      typeStart := hinv.typeStart }
  · intro c
    by_cases hc : c = e.2.2
    · subst hc
      constructor
      · intro hcon
        have hcon2 : (fun c2 => if c2 = e.2.2 then false else st.openHash c2) e.2.2
            = true := hcon
        exact Bool.noConfusion (hfalse.symm.trans hcon2)
      · rintro ⟨e2, he2, hc2⟩
        exact absurd hc2 ((hiff e2).mp he2).2
    · constructor
      · intro hcon
        have hcon2 : (if c = e.2.2 then false else st.openHash c) = true := hcon
        rw [if_neg hc] at hcon2
        obtain ⟨e2, he2, hc2⟩ := (hinv.hashQueue c).mp hcon2
        exact ⟨e2, (hiff e2).mpr ⟨he2, hc2 ▸ hc⟩, hc2⟩
      · rintro ⟨e2, he2, hc2⟩
        show (if c = e.2.2 then false else st.openHash c) = true
        rw [if_neg hc]
        exact (hinv.hashQueue c).mpr ⟨e2, ((hiff e2).mp he2).1, hc2⟩
  · intro c hcur hdisc
    rcases hinv.neighborClosed c hdisc with hopen | hall
    · left
      show (if c = e.2.2 then false else st.openHash c) = true
      rw [if_neg hcur]
      exact hopen
    · exact Or.inr hall
  · intro c hcs hcur hdisc hhash
    have hh2 : st.openHash c = true := by
      have hh3 : (if c = e.2.2 then false else st.openHash c) = true := hhash
      rwa [if_neg hcur] at hh3
    exact hinv.typeDiscOpen c hcs hdisc hh2
  · intro c hcs hcur hdisc hhash
    have hh2 : st.openHash c = false := by
      have hh3 : (if c = e.2.2 then false else st.openHash c) = false := hhash
      rwa [if_neg hcur] at hh3
    exact hinv.typeDiscClosed c hcs hdisc hh2

/-- A loop iteration that continues preserves the invariant and strictly
decreases the termination measure. -/
theorem stepOnce_next_inv {lvl : Level} {tr tc : Nat} {s gl : Coord}
    (hwf : Wf lvl tr tc s gl) (rfuel : Nat) {st stA : SState}
    (hinv : Inv lvl tr tc s st)
    (hstep : stepOnce (update_neighbors lvl tr tc) s gl rfuel st = StepOut.next stA) :
    Inv lvl tr tc s stA ∧ searchMeasure lvl stA < searchMeasure lvl st := by
  unfold stepOnce at hstep
  rcases hpop : popMin st.openNodes with _ | ⟨e, rest⟩ <;> rw [hpop] at hstep
  · cases hstep
  · dsimp only at hstep
    by_cases hg : e.2.2 = gl
    · rw [if_pos hg] at hstep
      cases hstep
    · rw [if_neg hg] at hstep
      obtain ⟨hmid, hcells, hdisc, hlen⟩ := pop_mid hinv hpop
      set st1 : SState :=
        { st with openNodes := rest,
                  openHash := fun c => if c = e.2.2 then false else st.openHash c }
        with hst1
      rcases hgc : st.gScore e.2.2 with _ | gcur
      · exact absurd hgc hdisc
      have hgc1 : st1.gScore e.2.2 = some gcur := hgc
      have hhash1 : st1.openHash e.2.2 = false := if_pos rfl
      obtain ⟨hmid2, hgc2, hhash2, hnbrs2, hmono2, hmu2⟩ :=
        fold_relax_preserves hwf gl (update_neighbors lvl tr tc e.2.2) st1 hmid
          hcells hgc1 hhash1 (fun n hn => hn)
      rw [show List.foldl (relaxNeighbor gl e.2.2) st1 (update_neighbors lvl tr tc e.2.2)
            = expandNode (update_neighbors lvl tr tc) gl e.2.2 st1 from rfl]
        at hmid2 hgc2 hhash2 hnbrs2 hmono2 hmu2
      set st2 : SState := expandNode (update_neighbors lvl tr tc) gl e.2.2 st1
        with hst2
      have hmu1 : searchMeasure lvl st1 + 1 = searchMeasure lvl st := by
        show rest.length
            + ((cells lvl).map (fun c => gWeight (cellCount lvl) (st.gScore c))).sum + 1
          = st.openNodes.length
            + ((cells lvl).map (fun c => gWeight (cellCount lvl) (st.gScore c))).sum
        omega
      have hnbc2 : ∀ c, st2.gScore c ≠ none →
          st2.openHash c = true ∨
          ∀ n ∈ update_neighbors lvl tr tc c, st2.gScore n ≠ none := by
        intro c hdc
        by_cases hc : c = e.2.2
        · subst hc
          exact Or.inr hnbrs2
        · exact hmid2.neighborClosed c hc hdc
      rcases hcs : decide (e.2.2 = s) with _ | _
      · -- cur is not the start: it gets closed
        have hcs2 : e.2.2 ≠ s := of_decide_eq_false hcs
        rw [if_neg hcs2] at hstep
        injection hstep with hstepA
        subst hstepA
        constructor
        · refine
            { hashQueue := hmid2.hashQueue
              queueNodup := hmid2.queueNodup
              queueDiscovered := hmid2.queueDiscovered
              queueCells := hmid2.queueCells
              gStart := hmid2.gStart
              cameFromStart := hmid2.cameFromStart
              cameFromDec := hmid2.cameFromDec
              cameFromEdge := hmid2.cameFromEdge
              discoveredCame := hmid2.discoveredCame
              discoveredCells := hmid2.discoveredCells
              discoveredReach := hmid2.discoveredReach
              discoveredNotObstacle := hmid2.discoveredNotObstacle
              neighborClosed := hnbc2
              maxG := hmid2.maxG
              typeUndiscovered := ?_
              typeDiscOpen := ?_
              typeDiscClosed := ?_
              typeStart := ?_ }
          · intro c hdc
            have hc : c ≠ e.2.2 := by
              intro hcon
              rw [hcon] at hdc
              have hd4 : st2.gScore e.2.2 = none := hdc
              rw [hgc2] at hd4
              exact Option.noConfusion hd4
            show (if c = e.2.2 then NodeType.CLOSED else st2.types c) = typeAt lvl c
            rw [if_neg hc]
            exact hmid2.typeUndiscovered c hdc
          · intro c hcs3 hdc hh
            have hc : c ≠ e.2.2 := by
              intro hcon
              rw [hcon] at hh
              have hh4 : st2.openHash e.2.2 = true := hh
              rw [hhash2] at hh4
              exact Bool.noConfusion hh4
            show (if c = e.2.2 then NodeType.CLOSED else st2.types c) = NodeType.OPEN
            rw [if_neg hc]
            exact hmid2.typeDiscOpen c hcs3 hc hdc hh
          · intro c hcs3 hdc hh
            by_cases hc : c = e.2.2
            · subst hc
              show (if e.2.2 = e.2.2 then NodeType.CLOSED else st2.types e.2.2)
                  = NodeType.CLOSED
              rw [if_pos rfl]
            · show (if c = e.2.2 then NodeType.CLOSED else st2.types c) = NodeType.CLOSED
              rw [if_neg hc]
              exact hmid2.typeDiscClosed c hcs3 hc hdc hh
          · show (if s = e.2.2 then NodeType.CLOSED else st2.types s) = typeAt lvl s
            rw [if_neg (fun hcon => hcs2 hcon.symm)]
            exact hmid2.typeStart
        · show searchMeasure lvl st2 < searchMeasure lvl st
          omega
      · -- cur = start: no closing
        have hcs2 : e.2.2 = s := of_decide_eq_true hcs
        rw [if_pos hcs2] at hstep
        injection hstep with hstepA
        subst hstepA
        constructor
        · exact
            { hashQueue := hmid2.hashQueue
              queueNodup := hmid2.queueNodup
              queueDiscovered := hmid2.queueDiscovered
              queueCells := hmid2.queueCells
              gStart := hmid2.gStart
              cameFromStart := hmid2.cameFromStart
              cameFromDec := hmid2.cameFromDec
              cameFromEdge := hmid2.cameFromEdge
              discoveredCame := hmid2.discoveredCame
              discoveredCells := hmid2.discoveredCells
              discoveredReach := hmid2.discoveredReach
              discoveredNotObstacle := hmid2.discoveredNotObstacle
              neighborClosed := hnbc2
              maxG := hmid2.maxG
              typeUndiscovered := hmid2.typeUndiscovered
              typeDiscOpen := fun c hcs3 hdc hh =>
                hmid2.typeDiscOpen c hcs3 (fun hcon => hcs3 (hcon.trans hcs2)) hdc hh
              typeDiscClosed := fun c hcs3 hdc hh =>
                hmid2.typeDiscClosed c hcs3 (fun hcon => hcs3 (hcon.trans hcs2)) hdc hh
              typeStart := hmid2.typeStart }
        · show searchMeasure lvl st2 < searchMeasure lvl st
          omega

/-- The loop invariant holds at the initial state. -/
theorem Inv_init {lvl : Level} {tr tc : Nat} {s gl : Coord}
    (hwf : Wf lvl tr tc s gl) : Inv lvl tr tc s (initState lvl s gl) := by
  refine
    { hashQueue := ?_
      queueNodup := by simp [initState]
      queueDiscovered := ?_
      queueCells := ?_
      gStart := if_pos rfl
      cameFromStart := rfl
      cameFromDec := fun c p hcp => Option.noConfusion hcp
      cameFromEdge := fun c p hcp => Option.noConfusion hcp
      discoveredCame := ?_
      discoveredCells := ?_
      discoveredReach := ?_
      discoveredNotObstacle := ?_
      neighborClosed := ?_
      maxG := ?_
      typeUndiscovered := fun c _ => rfl
      typeDiscOpen := ?_
      typeDiscClosed := ?_
      typeStart := rfl }
  · intro c
    constructor
    · intro hc
      have hc2 : c = s := of_decide_eq_true hc
      exact ⟨(0, 0, s), List.mem_singleton_self _, hc2.symm⟩
    · rintro ⟨e, he, hec⟩
      have he2 : e ∈ [((0, 0, s) : Entry)] := he
      rw [List.mem_singleton] at he2
      subst he2
      exact decide_eq_true hec.symm
  · intro e he
    have he2 : e ∈ [((0, 0, s) : Entry)] := he
    rw [List.mem_singleton] at he2
    subst he2
    show (if s = s then some 0 else none) ≠ none
    rw [if_pos rfl]
    exact fun hc => Option.noConfusion hc
  · intro e he
    have he2 : e ∈ [((0, 0, s) : Entry)] := he
    rw [List.mem_singleton] at he2
    subst he2
    exact hwf.start_mem
  · intro c hcs hdc
    exfalso
    apply hdc
    show (if c = s then some 0 else none) = none
    rw [if_neg hcs]
  · intro c hdc
    by_cases hcs : c = s
    · exact hcs ▸ hwf.start_mem
    · exfalso
      apply hdc
      show (if c = s then some 0 else none) = none
      rw [if_neg hcs]
  · intro c hdc
    by_cases hcs : c = s
    · exact hcs ▸ reachable_refl lvl s
    · exfalso
      apply hdc
      show (if c = s then some 0 else none) = none
      rw [if_neg hcs]
  · intro c hdc
    by_cases hcs : c = s
    · subst hcs
      rw [hwf.start_type]
      intro hcon
      cases hcon
    · exfalso
      apply hdc
      show (if c = s then some 0 else none) = none
      rw [if_neg hcs]
  · intro c hdc
    by_cases hcs : c = s
    · left
      exact decide_eq_true hcs
    · exfalso
      apply hdc
      show (if c = s then some 0 else none) = none
      rw [if_neg hcs]
  · intro c v hcv
    by_cases hcs : c = s
    · subst hcs
      have hv : (if c = c then some 0 else none) = some v := hcv
      rw [if_pos rfl] at hv
      injection hv with hv2
      subst hv2
      have hpos : 0 < (cells lvl).countP
          (fun d => ((initState lvl c gl).gScore d).isSome) := by
        rw [List.countP_pos]
        refine ⟨c, hwf.start_mem, ?_⟩
        show ((if c = c then some 0 else none : Option Nat)).isSome = true
        rw [if_pos rfl]
        rfl
      omega
    · exfalso
      have hv : (if c = s then some 0 else none) = some v := hcv
      rw [if_neg hcs] at hv
      exact Option.noConfusion hv
  · intro c hcs hdc hh
    exfalso
    apply hdc
    show (if c = s then some 0 else none) = none
    rw [if_neg hcs]
  · intro c hcs hdc hh
    exfalso
    apply hdc
    show (if c = s then some 0 else none) = none
    rw [if_neg hcs]

/-- With fuel exceeding the measure, the loop always returns. -/
theorem runLoop_terminates {lvl : Level} {tr tc : Nat} {s gl : Coord}
    (hwf : Wf lvl tr tc s gl) (rfuel : Nat) :
    ∀ (fuel : Nat) (st : SState), Inv lvl tr tc s st →
      searchMeasure lvl st < fuel →
      ∃ res, runLoop (update_neighbors lvl tr tc) s gl rfuel fuel st = some res := by
  intro fuel
  induction fuel with
  | zero =>
    intro st _ hlt
    exact absurd hlt (Nat.not_lt_zero _)
  | succ fuel ih =>
    intro st hinv hlt
    rw [runLoop]
    rcases hso : stepOnce (update_neighbors lvl tr tc) s gl rfuel st with st2 | ⟨path, st2⟩ | st2
    · obtain ⟨hinv2, hmu⟩ := stepOnce_next_inv hwf rfuel hinv hso
      exact ih st2 hinv2 (by omega)
    · exact ⟨(true, path, st2), rfl⟩
    · exact ⟨(false, [], st2), rfl⟩

theorem getLast_cons_of_ne_nil {α : Type} (a : α) {l : List α} (hl : l ≠ []) :
    (a :: l).getLast? = l.getLast? := by
  cases l with
  | nil => exact absurd rfl hl
  | cons x xs => exact List.getLast?_cons_cons

theorem chainWalk_none {cf : Coord → Option Coord} {c : Coord}
    (hcf : cf c = none) (fuel : Nat) : chainWalk cf fuel c = [c] := by
  cases fuel with
  | zero => rfl
  | succ fuel =>
    rw [chainWalk, hcf]

/-- The predecessor walk does not depend on the fuel once the fuel reaches
the gScore of the starting node: the walk terminates. -/
theorem chainWalk_stable {cf : Coord → Option Coord} {g : Coord → Option Nat}
    (hdec : ∀ c p, cf c = some p → ∃ a b, g c = some a ∧ g p = some b ∧ b < a) :
    ∀ (fuel : Nat) (c : Coord) (a fuel2 : Nat), g c = some a → a ≤ fuel →
      a ≤ fuel2 → chainWalk cf fuel c = chainWalk cf fuel2 c := by
  intro fuel
  induction fuel with
  | zero =>
    intro c a fuel2 hgc hle _
    rcases hcf : cf c with _ | p
    · rw [chainWalk_none hcf, chainWalk_none hcf]
    · obtain ⟨a2, b, hga, hgp, hba⟩ := hdec c p hcf
      rw [hgc] at hga
      injection hga with hga2
      omega
  | succ fuel ih =>
    intro c a fuel2 hgc hle hle2
    rcases hcf : cf c with _ | p
    · rw [chainWalk_none hcf, chainWalk_none hcf]
    · obtain ⟨a2, b, hga, hgp, hba⟩ := hdec c p hcf
      rw [hgc] at hga
      injection hga with hga2
      subst hga2
      rcases fuel2 with _ | f2
      · omega
      · rw [chainWalk, chainWalk, hcf]
        dsimp only
        rw [ih p b f2 hgp (by omega) (by omega)]

/-- With enough fuel the predecessor walk ends at the start, stays inside
the discovered region, has length bounded by the gScore, and consecutive
elements are cameFrom edges. -/
theorem chainWalk_ends {cf : Coord → Option Coord} {g : Coord → Option Nat}
    {s : Coord}
    (hcfs : cf s = none)
    (hdec : ∀ c p, cf c = some p → ∃ a b, g c = some a ∧ g p = some b ∧ b < a)
    (hcame : ∀ c, c ≠ s → g c ≠ none → cf c ≠ none) :
    ∀ (fuel : Nat) (c : Coord) (a : Nat), g c = some a → a ≤ fuel →
      (chainWalk cf fuel c).getLast? = some s
      ∧ (chainWalk cf fuel c).length ≤ a + 1
      ∧ (∀ m ∈ chainWalk cf fuel c, g m ≠ none)
      ∧ List.Chain' (fun x y => cf x = some y) (chainWalk cf fuel c) := by
  intro fuel
  induction fuel with
  | zero =>
    intro c a hgc hle
    have hcf : cf c = none := by
      rcases hcf : cf c with _ | p
      · rfl
      · obtain ⟨a2, b, hga, hgp, hba⟩ := hdec c p hcf
        rw [hgc] at hga
        injection hga with hga2
        omega
    have hcs : c = s := by
      by_contra hne
      exact hcame c hne (by rw [hgc]; exact fun hc => Option.noConfusion hc) hcf
    subst hcs
    refine ⟨rfl, by simp [chainWalk], ?_, by simp [chainWalk]⟩
    intro m hm
    have hm2 : m ∈ [c] := hm
    rw [List.mem_singleton] at hm2
    subst hm2
    rw [hgc]
    exact fun hc => Option.noConfusion hc
  | succ fuel ih =>
    intro c a hgc hle
    rcases hcf : cf c with _ | p
    · have hcs : c = s := by
        by_contra hne
        exact hcame c hne (by rw [hgc]; exact fun hc => Option.noConfusion hc) hcf
      subst hcs
      rw [chainWalk_none hcf]
      refine ⟨rfl, by simp, ?_, by simp⟩
      intro m hm
      rw [List.mem_singleton] at hm
      subst hm
      rw [hgc]
      exact fun hc => Option.noConfusion hc
    · obtain ⟨a2, b, hga, hgp, hba⟩ := hdec c p hcf
      rw [hgc] at hga
      injection hga with hga2
      subst hga2
      obtain ⟨hlast, hlen, hmem, hchain⟩ := ih p b hgp (by omega)
      rw [chainWalk, hcf]
      dsimp only
      refine ⟨?_, ?_, ?_, ?_⟩
      · rw [getLast_cons_of_ne_nil c (chainWalk_ne_nil cf fuel p)]
        exact hlast
      · simp only [List.length_cons]
        omega
      · intro m hm
        rcases List.mem_cons.mp hm with rfl | hm2
        · rw [hgc]
          exact fun hc => Option.noConfusion hc
        · exact hmem m hm2
      · rw [List.chain'_cons']
        refine ⟨?_, hchain⟩
        intro y hy
        rw [chainWalk_head cf fuel p] at hy
        have hy2 : y = p := by
          injection hy with h2
          exact h2.symm
        subst hy2
        exact hcf

/-- Path reconstruction leaves `cameFrom` and `gScore` untouched, and the
only cells whose type it changes are `cameFrom` targets that were not
marked START, which it repaints PATH. -/
theorem reconstruct_effects (fuel : Nat) :
    ∀ (st : SState) (c : Coord),
      (reconstruct_path fuel st c).2.cameFrom = st.cameFrom
      ∧ (reconstruct_path fuel st c).2.gScore = st.gScore
      ∧ ∀ m, (reconstruct_path fuel st c).2.types m = st.types m
          ∨ ((∃ x, st.cameFrom x = some m) ∧ st.types m ≠ NodeType.START
              ∧ (reconstruct_path fuel st c).2.types m = NodeType.PATH) := by
  induction fuel with
  | zero =>
    intro st c
    exact ⟨rfl, rfl, fun m => Or.inl rfl⟩
  | succ fuel ih =>
    intro st c
    rw [reconstruct_path]
    rcases hcf : st.cameFrom c with _ | prev
    · exact ⟨rfl, rfl, fun m => Or.inl rfl⟩
    · dsimp only
      by_cases hcond : st.types prev ≠ NodeType.START ∧ st.types prev ≠ NodeType.GOAL
      · rw [if_pos hcond]
        obtain ⟨ihc, ihg, iht⟩ := ih
          { st with
            types := fun c2 => if c2 = prev then NodeType.PATH else st.types c2
            trace := (st.trace ++ [Obs.pathCell prev]) ++ [Obs.stepBoundary] }
          prev
        refine ⟨ihc, ihg, ?_⟩
        intro m
        rcases iht m with heq | ⟨⟨x, hx⟩, hnstart, hpath⟩
        · by_cases hm : m = prev
          · subst hm
            right
            refine ⟨⟨c, hcf⟩, hcond.1, ?_⟩
            rw [heq]
            show (if m = m then NodeType.PATH else st.types m) = NodeType.PATH
            rw [if_pos rfl]
          · left
            rw [heq]
            show (if m = prev then NodeType.PATH else st.types m) = st.types m
            rw [if_neg hm]
        · right
          have hx2 : st.cameFrom x = some m := hx
          have hns2 : st.types m ≠ NodeType.START := by
            by_cases hm : m = prev
            · exact hm ▸ hcond.1
            · intro hcon
              apply hnstart
              show (if m = prev then NodeType.PATH else st.types m) = NodeType.START
              rw [if_neg hm]
              exact hcon
          exact ⟨⟨x, hx2⟩, hns2, hpath⟩
      · rw [if_neg hcond]
        obtain ⟨ihc, ihg, iht⟩ := ih { st with trace := st.trace ++ [Obs.stepBoundary] } prev
        exact ⟨ihc, ihg, fun m => iht m⟩

theorem stepOnce_exhausted_spec {nbrs : Coord → List Coord} {s gl : Coord}
    {rfuel : Nat} {st stF : SState}
    (hso : stepOnce nbrs s gl rfuel st = StepOut.exhausted stF) :
    stF = st ∧ st.openNodes = [] := by
  unfold stepOnce at hso
  rcases hpop : popMin st.openNodes with _ | ⟨e, rest⟩ <;> rw [hpop] at hso
  · injection hso with h1
    refine ⟨h1.symm, ?_⟩
    unfold popMin at hpop
    rcases hm : minEntry st.openNodes with _ | m <;> rw [hm] at hpop
    · exact minEntry_eq_none.mp hm
    · exact Option.noConfusion hpop
  · dsimp only at hso
    by_cases hg : e.2.2 = gl
    · rw [if_pos hg] at hso
      cases hso
    · rw [if_neg hg] at hso
      by_cases hcs : e.2.2 = s
      · rw [if_pos hcs] at hso
        cases hso
      · rw [if_neg hcs] at hso
        cases hso

theorem stepOnce_found_spec {nbrs : Coord → List Coord} {s gl : Coord}
    {rfuel : Nat} {st : SState} {path : List Coord} {stF : SState}
    (hso : stepOnce nbrs s gl rfuel st = StepOut.found path stF) :
    ∃ e rest, popMin st.openNodes = some (e, rest) ∧ e.2.2 = gl
      ∧ path = (reconstruct_path rfuel
          { st with openNodes := rest,
                    openHash := fun c => if c = gl then false else st.openHash c,
                    types := fun c => if c = gl then NodeType.GOAL else st.types c }
          gl).1.reverse
      ∧ stF = (reconstruct_path rfuel
          { st with openNodes := rest,
                    openHash := fun c => if c = gl then false else st.openHash c,
                    types := fun c => if c = gl then NodeType.GOAL else st.types c }
          gl).2 := by
  unfold stepOnce at hso
  rcases hpop : popMin st.openNodes with _ | ⟨e, rest⟩ <;> rw [hpop] at hso
  · cases hso
  · dsimp only at hso
    by_cases hg : e.2.2 = gl
    · rw [if_pos hg] at hso
      rw [hg] at hso
      injection hso with h1 h2
      exact ⟨e, rest, rfl, hg, h1.symm, h2.symm⟩
    · rw [if_neg hg] at hso
      by_cases hcs : e.2.2 = s
      · rw [if_pos hcs] at hso
        cases hso
      · rw [if_neg hcs] at hso
        cases hso

/-- Full analysis of a completed search run from an invariant state: either
the frontier emptied and the search reports failure from an invariant state
with an empty queue, or the goal was popped in an invariant state and the
result is the reversed predecessor walk together with the repainted final
state. -/
theorem runLoop_out {lvl : Level} {tr tc : Nat} {s gl : Coord}
    (hwf : Wf lvl tr tc s gl) (rfuel : Nat) :
    ∀ (fuel : Nat) (st : SState), Inv lvl tr tc s st →
    ∀ {res : Bool × List Coord × SState},
      runLoop (update_neighbors lvl tr tc) s gl rfuel fuel st = some res →
      (∃ stE, Inv lvl tr tc s stE ∧ stE.openNodes = []
        ∧ res = (false, [], stE))
      ∨ (∃ stP : SState, Inv lvl tr tc s stP ∧ stP.gScore gl ≠ none
          ∧ res.1 = true
          ∧ res.2.1 = (chainWalk stP.cameFrom rfuel gl).reverse
          ∧ res.2.2.cameFrom = stP.cameFrom
          ∧ res.2.2.gScore = stP.gScore
          ∧ (∀ c, stP.gScore c = none → c ≠ gl → res.2.2.types c = stP.types c)
          ∧ res.2.2.types s = stP.types s) := by
  intro fuel
  induction fuel with
  | zero =>
    intro st _ res hrun
    exact Option.noConfusion hrun
  | succ fuel ih =>
    intro st hinv res hrun
    rw [runLoop] at hrun
    rcases hso : stepOnce (update_neighbors lvl tr tc) s gl rfuel st
      with st2 | ⟨path, st2⟩ | st2 <;> rw [hso] at hrun
    · exact ih st2 (stepOnce_next_inv hwf rfuel hinv hso).1 hrun
    · injection hrun with hres
      subst hres
      obtain ⟨e, rest, hpop, hg, hpath, hstF⟩ := stepOnce_found_spec hso
      right
      obtain ⟨hmid, hcells, hdisc, hlen⟩ := pop_mid hinv hpop
      set st1 : SState :=
        { st with openNodes := rest,
                  openHash := fun c => if c = gl then false else st.openHash c,
                  types := fun c => if c = gl then NodeType.GOAL else st.types c }
        with hst1
      obtain ⟨hrc, hrg, hrt⟩ := reconstruct_effects rfuel st1 gl
      refine ⟨st, hinv, hg ▸ hdisc, rfl, ?_, ?_, ?_, ?_, ?_⟩
      · show path = (chainWalk st.cameFrom rfuel gl).reverse
        rw [hpath, reconstruct_path_fst]
      · show st2.cameFrom = st.cameFrom
        rw [hstF, hrc]
      · show st2.gScore = st.gScore
        rw [hstF, hrg]
      · intro c hgc hcgl
        show st2.types c = st.types c
        rw [hstF]
        rcases hrt c with heq | ⟨⟨x, hx⟩, _, _⟩
        · rw [heq]
          show (if c = gl then NodeType.GOAL else st.types c) = st.types c
          rw [if_neg hcgl]
        · exfalso
          have hx2 : st.cameFrom x = some c := hx
          obtain ⟨a2, b2, _, hgb2, _⟩ := hinv.cameFromDec x c hx2
          rw [hgc] at hgb2
          exact Option.noConfusion hgb2
      · show st2.types s = st.types s
        rw [hstF]
        rcases hrt s with heq | ⟨_, hnstart, _⟩
        · rw [heq]
          show (if s = gl then NodeType.GOAL else st.types s) = st.types s
          rw [if_neg hwf.start_ne_goal]
        · exfalso
          apply hnstart
          show (if s = gl then NodeType.GOAL else st.types s) = NodeType.START
          rw [if_neg hwf.start_ne_goal, hinv.typeStart, hwf.start_type]
    · injection hrun with hres
      subst hres
      obtain ⟨hstF, hempty⟩ := stepOnce_exhausted_spec hso
      exact Or.inl ⟨st, hinv, hempty, by rw [hstF]⟩

/-- The invariant holds at every state the search loop passes through. -/
theorem runSteps_inv {lvl : Level} {tr tc : Nat} {s gl : Coord}
    (hwf : Wf lvl tr tc s gl) (rfuel : Nat) :
    ∀ (k : Nat) (st st2 : SState), Inv lvl tr tc s st →
      runSteps (update_neighbors lvl tr tc) s gl rfuel k st = some st2 →
      Inv lvl tr tc s st2 := by
  intro k
  induction k with
  | zero =>
    intro st st2 hinv hrun
    injection hrun with h1
    exact h1 ▸ hinv
  | succ k ih =>
    intro st st2 hinv hrun
    rw [runSteps] at hrun
    rcases hso : stepOnce (update_neighbors lvl tr tc) s gl rfuel st
      with st3 | ⟨path, st3⟩ | st3 <;> rw [hso] at hrun
    · exact ih st3 st2 (stepOnce_next_inv hwf rfuel hinv hso).1 hrun
    · exact Option.noConfusion hrun
    · exact Option.noConfusion hrun

/-- The initial measure is below the search fuel, so the fuelled loop always
returns: it is observationally the unbounded Python loop. -/
theorem initMeasure_lt (lvl : Level) (s gl : Coord) :
    searchMeasure lvl (initState lvl s gl) < searchFuel lvl := by
  have hsum : ((cells lvl).map
      (fun c => gWeight (cellCount lvl) ((initState lvl s gl).gScore c))).sum
      ≤ (cells lvl).length * (cellCount lvl + 1) := by
    have hb := List.sum_le_card_nsmul
      ((cells lvl).map
        (fun c => gWeight (cellCount lvl) ((initState lvl s gl).gScore c)))
      (cellCount lvl + 1) ?_
    · rw [List.length_map, smul_eq_mul] at hb
      exact hb
    · intro x hx
      obtain ⟨d, _, hdx⟩ := List.mem_map.mp hx
      subst hdx
      show gWeight (cellCount lvl) (if d = s then some 0 else none) ≤ cellCount lvl + 1
      by_cases hds : d = s
      · rw [if_pos hds]
        show (0 : Nat) ≤ cellCount lvl + 1
        omega
      · rw [if_neg hds]
        show cellCount lvl + 1 ≤ cellCount lvl + 1
        omega
  show (1 : Nat) + _ < (cellCount lvl + 1) * (cellCount lvl + 1) + 2
  rw [cells_length] at hsum
  have hexp : (cellCount lvl + 1) * (cellCount lvl + 1)
      = cellCount lvl * (cellCount lvl + 1) + cellCount lvl + 1 := by ring
  omega

/-- The completed `find_path` call, analyzed: it always returns, and the
result is as `runLoop_out` describes from the initial state. -/
theorem find_path_spec {lvl : Level} {tr tc : Nat} {s gl : Coord}
    (hwf : Wf lvl tr tc s gl) :
    ∃ res, find_path lvl tr tc s gl = some res
      ∧ ((∃ stE, Inv lvl tr tc s stE ∧ stE.openNodes = []
            ∧ res = (false, [], stE))
        ∨ (∃ stP : SState, Inv lvl tr tc s stP ∧ stP.gScore gl ≠ none
            ∧ res.1 = true
            ∧ res.2.1 = (chainWalk stP.cameFrom (reconFuel lvl) gl).reverse
            ∧ res.2.2.cameFrom = stP.cameFrom
            ∧ res.2.2.gScore = stP.gScore
            ∧ (∀ c, stP.gScore c = none → c ≠ gl → res.2.2.types c = stP.types c)
            ∧ res.2.2.types s = stP.types s)) := by
  obtain ⟨res, hres⟩ := runLoop_terminates hwf (reconFuel lvl) (searchFuel lvl)
    (initState lvl s gl) (Inv_init hwf) (initMeasure_lt lvl s gl)
  exact ⟨res, hres, runLoop_out hwf (reconFuel lvl) (searchFuel lvl)
    (initState lvl s gl) (Inv_init hwf) hres⟩

/-- C2: on a grid whose goal is unreachable from the start, `find_path`
reports failure with an empty path, and every passable (UNVISITED) cell
reachable from the start is marked CLOSED in the final state. -/
theorem claim2_unreachable_not_found {lvl : Level} {tr tc : Nat} {s gl : Coord}
    (hwf : Wf lvl tr tc s gl) (hnr : ¬ Reachable lvl s gl) :
    ∃ stF, find_path lvl tr tc s gl = some (false, [], stF)
      ∧ ∀ c, Reachable lvl s c → typeAt lvl c = NodeType.UNVISITED →
          stF.types c = NodeType.CLOSED := by
  obtain ⟨res, hres, hcase⟩ := find_path_spec hwf
  rcases hcase with ⟨stE, hinv, hempty, hreseq⟩ | ⟨stP, hinv, hdisc, _⟩
  · subst hreseq
    refine ⟨stE, hres, ?_⟩
    have hclosed : ∀ x, stE.gScore x ≠ none →
        ∀ y ∈ gridNeighbors lvl x, stE.gScore y ≠ none := by
      intro x hx y hy
      rcases hinv.neighborClosed x hx with hopen | hall
      · exfalso
        obtain ⟨e2, he2, _⟩ := (hinv.hashQueue x).mp hopen
        rw [hempty] at he2
        cases he2
      · exact hall y ((mem_update_iff_grid hwf (hinv.discoveredCells x hx)).mpr hy)
    have hreach : ∀ c, Reachable lvl s c → stE.gScore c ≠ none := by
      intro c hc
      obtain ⟨k, hk⟩ := hc
      exact reach_subset_of_closed (fun x => stE.gScore x ≠ none) hclosed
        (by show stE.gScore s ≠ none; rw [hinv.gStart]; exact fun hcon => Option.noConfusion hcon) k c hk
    intro c hrc htc
    have hcs : c ≠ s := by
      intro hcon
      rw [hcon, hwf.start_type] at htc
      cases htc
    have hdc := hreach c hrc
    have hh : stE.openHash c = false := by
      rcases hh2 : stE.openHash c with _ | _
      · rfl
      · exfalso
        obtain ⟨e2, he2, _⟩ := (hinv.hashQueue c).mp hh2
        rw [hempty] at he2
        cases he2
    exact hinv.typeDiscClosed c hcs hdc hh
  · exact absurd (hinv.discoveredReach gl hdisc) hnr

/-- C2 witness: a 1×3 level whose goal is walled off. -/
theorem claim2_unreachable_not_found_witness :
    ∃ stF, find_path blockedLevel 1 3 ⟨0, 0⟩ ⟨0, 2⟩ = some (false, [], stF)
      ∧ ∀ c, Reachable blockedLevel ⟨0, 0⟩ c →
          typeAt blockedLevel c = NodeType.UNVISITED →
          stF.types c = NodeType.CLOSED :=
  claim2_unreachable_not_found
    ⟨rfl, by decide, by decide, by decide, rfl, rfl⟩
    (not_reachable_of_closed_ball 3 (by decide) (by decide))

/-- C6: in every state the search passes through, once the goal is
discovered the predecessor walk from the goal ends at the start, is
independent of any further fuel (it terminates), and its length is bounded:
`cameFrom` has no cycles because each predecessor strictly decreases the
gScore, which is bounded below by 0. -/
theorem claim6_walk_terminates {lvl : Level} {tr tc : Nat} {s gl : Coord}
    (hwf : Wf lvl tr tc s gl) (k : Nat) (st : SState)
    (hrun : runSteps (update_neighbors lvl tr tc) s gl (reconFuel lvl) k
      (initState lvl s gl) = some st)
    (hg : st.gScore gl ≠ none) :
    ∀ fuel, cellCount lvl ≤ fuel →
      (chainWalk st.cameFrom fuel gl).getLast? = some s
      ∧ chainWalk st.cameFrom fuel gl = chainWalk st.cameFrom (cellCount lvl) gl
      ∧ (chainWalk st.cameFrom fuel gl).length ≤ cellCount lvl + 1 := by
  have hinv := runSteps_inv hwf (reconFuel lvl) k (initState lvl s gl) st
    (Inv_init hwf) hrun
  rcases hga : st.gScore gl with _ | a
  · exact absurd hga hg
  have ha : a < cellCount lvl := by
    have hm := hinv.maxG gl a hga
    have hcount := List.countP_le_length
      (fun d => ((st.gScore d)).isSome) (l := cells lvl)
    rw [cells_length] at hcount
    omega
  intro fuel hfuel
  obtain ⟨hlast, hlen, _, _⟩ := chainWalk_ends hinv.cameFromStart
    hinv.cameFromDec hinv.discoveredCame fuel gl a hga (by omega)
  refine ⟨hlast, ?_, by omega⟩
  exact chainWalk_stable hinv.cameFromDec fuel gl a (cellCount lvl) hga
    (by omega) (by omega)

/-- C6 witness: a 1×3 open row after two loop iterations has the goal
discovered, and the walk from the goal ends at the start. -/
theorem claim6_walk_terminates_witness :
    ∃ st, runSteps (update_neighbors rowLevel 1 3) ⟨0, 0⟩ ⟨0, 2⟩
        (reconFuel rowLevel) 2 (initState rowLevel ⟨0, 0⟩ ⟨0, 2⟩) = some st
      ∧ st.gScore ⟨0, 2⟩ ≠ none
      ∧ ∀ fuel, cellCount rowLevel ≤ fuel →
          (chainWalk st.cameFrom fuel ⟨0, 2⟩).getLast? = some ⟨0, 0⟩
          ∧ chainWalk st.cameFrom fuel ⟨0, 2⟩
            = chainWalk st.cameFrom (cellCount rowLevel) ⟨0, 2⟩
          ∧ (chainWalk st.cameFrom fuel ⟨0, 2⟩).length ≤ cellCount rowLevel + 1 := by
  have hwf : Wf rowLevel 1 3 ⟨0, 0⟩ ⟨0, 2⟩ :=
    ⟨rfl, by decide, by decide, by decide, rfl, rfl⟩
  refine ⟨_, rfl, by decide, ?_⟩
  exact claim6_walk_terminates hwf 2 _ rfl (by decide)

/-- C7: every path a successful search returns starts at the start, ends at
the goal, every consecutive pair of its coordinates is 4-adjacent (Manhattan
distance 1), and none of its coordinates is an obstacle cell. -/
theorem claim7_path_valid {lvl : Level} {tr tc : Nat} {s gl : Coord}
    (hwf : Wf lvl tr tc s gl) {path : List Coord} {stF : SState}
    (hres : find_path lvl tr tc s gl = some (true, path, stF)) :
    path.head? = some s ∧ path.getLast? = some gl
    ∧ List.Chain' (fun a b => h a b = 1) path
    ∧ ∀ c ∈ path, typeAt lvl c ≠ NodeType.OBSTACLE := by
  obtain ⟨res, hres2, hcase⟩ := find_path_spec hwf
  rw [hres] at hres2
  injection hres2 with hres3
  subst hres3
  rcases hcase with ⟨stE, _, _, hreseq⟩ | ⟨stP, hinv, hdisc, _, hpath, _⟩
  · exfalso
    injection hreseq with h1 h23
    cases h1
  · have hpath2 : path = (chainWalk stP.cameFrom (reconFuel lvl) gl).reverse := hpath
    rcases hga : stP.gScore gl with _ | a
    · exact absurd hga hdisc
    have ha : a < cellCount lvl := by
      have hm := hinv.maxG gl a hga
      have hcount := List.countP_le_length
        (fun d => ((stP.gScore d)).isSome) (l := cells lvl)
      rw [cells_length] at hcount
      omega
    obtain ⟨hlast, hlen, hmem, hchain⟩ := chainWalk_ends hinv.cameFromStart
      hinv.cameFromDec hinv.discoveredCame (reconFuel lvl) gl a hga
      (by unfold reconFuel; omega)
    subst hpath2
    refine ⟨?_, ?_, ?_, ?_⟩
    · rw [List.head?_reverse]
      exact hlast
    · rw [List.getLast?_reverse]
      exact chainWalk_head stP.cameFrom (reconFuel lvl) gl
    · rw [List.chain'_reverse]
      refine List.Chain'.imp ?_ hchain
      intro x y hxy
      have hedge := hinv.cameFromEdge x y hxy
      obtain ⟨a2, b2, _, hgb2, _⟩ := hinv.cameFromDec x y hxy
      have hycells : y ∈ cells lvl := hinv.discoveredCells y
        (by rw [hgb2]; exact fun hcon => Option.noConfusion hcon)
      show h y x = 1
      rw [h_comm]
      exact adjacent_of_mem_update hwf hycells hedge
    · intro d hd
      rw [List.mem_reverse] at hd
      exact hinv.discoveredNotObstacle d (hmem d hd)

/-- C7 witness: the open 1×3 row yields the straight path, validated. -/
theorem claim7_path_valid_witness :
    ∃ (path : List Coord) (stF : SState),
      find_path rowLevel 1 3 ⟨0, 0⟩ ⟨0, 2⟩ = some (true, path, stF)
      ∧ path.head? = some ⟨0, 0⟩ ∧ path.getLast? = some ⟨0, 2⟩
      ∧ List.Chain' (fun a b => h a b = 1) path
      ∧ ∀ c ∈ path, typeAt rowLevel c ≠ NodeType.OBSTACLE := by
  have hwf : Wf rowLevel 1 3 ⟨0, 0⟩ ⟨0, 2⟩ :=
    ⟨rfl, by decide, by decide, by decide, rfl, rfl⟩
  refine ⟨_, _, rfl, ?_⟩
  exact claim7_path_valid hwf rfl

/-- C10: throughout the search — at the top of every loop iteration and in
the final state, path reconstruction included — obstacle cells keep the
OBSTACLE state and the start cell keeps the START state (it is never
repainted OPEN, CLOSED or PATH). -/
theorem claim10_obstacle_start_frame {lvl : Level} {tr tc : Nat} {s gl : Coord}
    (hwf : Wf lvl tr tc s gl) :
    (∀ k st, runSteps (update_neighbors lvl tr tc) s gl (reconFuel lvl) k
        (initState lvl s gl) = some st →
      (∀ c, typeAt lvl c = NodeType.OBSTACLE → st.types c = NodeType.OBSTACLE)
      ∧ st.types s = NodeType.START)
    ∧ ∀ ok path stF, find_path lvl tr tc s gl = some (ok, path, stF) →
      (∀ c, typeAt lvl c = NodeType.OBSTACLE → stF.types c = NodeType.OBSTACLE)
      ∧ stF.types s = NodeType.START := by
  constructor
  · intro k st hrun
    have hinv := runSteps_inv hwf (reconFuel lvl) k (initState lvl s gl) st
      (Inv_init hwf) hrun
    constructor
    · intro d hd
      have hgd : st.gScore d = none := by
        rcases hgd2 : st.gScore d with _ | v
        · rfl
        · exact absurd hd (hinv.discoveredNotObstacle d
            (by rw [hgd2]; exact fun hcon => Option.noConfusion hcon))
      rw [hinv.typeUndiscovered d hgd, hd]
    · rw [hinv.typeStart, hwf.start_type]
  · intro ok path stF hres
    obtain ⟨res, hres2, hcase⟩ := find_path_spec hwf
    rw [hres] at hres2
    injection hres2 with hres3
    subst hres3
    rcases hcase with ⟨stE, hinvE, _, hreseq⟩ | ⟨stP, hinv, _, _, _, _, _, htypes, hts⟩
    · injection hreseq with h1 h23
      injection h23 with h2 h3
      subst h3
      constructor
      · intro d hd
        have hgd : stF.gScore d = none := by
          rcases hgd2 : stF.gScore d with _ | v
          · rfl
          · exact absurd hd (hinvE.discoveredNotObstacle d
              (by rw [hgd2]; exact fun hcon => Option.noConfusion hcon))
        rw [hinvE.typeUndiscovered d hgd, hd]
      · rw [hinvE.typeStart, hwf.start_type]
    · constructor
      · intro d hd
        have hgd : stP.gScore d = none := by
          rcases hgd2 : stP.gScore d with _ | v
          · rfl
          · exact absurd hd (hinv.discoveredNotObstacle d
              (by rw [hgd2]; exact fun hcon => Option.noConfusion hcon))
        have hdgl : d ≠ gl := by
          intro hcon
          rw [hcon, hwf.goal_type] at hd
          cases hd
        have := htypes d hgd hdgl
        show stF.types d = NodeType.OBSTACLE
        rw [this, hinv.typeUndiscovered d hgd, hd]
      · show stF.types s = NodeType.START
        rw [hts, hinv.typeStart, hwf.start_type]

/-- C10 witness: the frame property on the open 1×3 row. -/
theorem claim10_obstacle_start_frame_witness :
    (∀ k st, runSteps (update_neighbors rowLevel 1 3) ⟨0, 0⟩ ⟨0, 2⟩
        (reconFuel rowLevel) k (initState rowLevel ⟨0, 0⟩ ⟨0, 2⟩) = some st →
      (∀ c, typeAt rowLevel c = NodeType.OBSTACLE →
        st.types c = NodeType.OBSTACLE)
      ∧ st.types ⟨0, 0⟩ = NodeType.START)
    ∧ ∀ ok path stF, find_path rowLevel 1 3 ⟨0, 0⟩ ⟨0, 2⟩ = some (ok, path, stF) →
      (∀ c, typeAt rowLevel c = NodeType.OBSTACLE →
        stF.types c = NodeType.OBSTACLE)
      ∧ stF.types ⟨0, 0⟩ = NodeType.START :=
  claim10_obstacle_start_frame ⟨rfl, by decide, by decide, by decide, rfl, rfl⟩

end AStar
